import Mathlib

/-!
Shallow embedding of the particle / field-line tracing core
(`src/simsoptpp/tracing.cpp`) over exact real arithmetic.

The Boost odeint dense-output Dormand-Prince stepper and the Boost TOMS 748
root solver are external collaborators of the core (they are library code,
not code of this repository); they are modelled as oracle parameters
(`Integrator`): `stepT n` is the time reached after the n-th accepted step
(`stepT 0 = 0` is the initial time), `calcState n t` is the dense output of
step n evaluated at time t, and `root f a b` is the refined root of f
returned for the bracket [a, b] (the C++ picks the endpoint of the final
TOMS 748 bracket with the smaller |f|; the oracle absorbs that choice and
the tolerance `eps_tolerance(-log2 abstol)` / 200-iteration cap).

The external magnetic-field evaluator is likewise out of scope; RHS
evaluations only enter `solve` through the stepper oracle, so the embedded
`solve` carries the RHS only through its `axis` flag, exactly the part of
the RHS that `solve` itself reads.
-/

open Real

noncomputable section

open scoped Classical

/-- C++ `std::atan2(y, x)`, modelled as the argument of the complex number
`x + y*i` (range `(-pi, pi]`, `atan2 0 0 = 0`, matching `std::atan2`). -/
def atan2 (y x : ℝ) : ℝ := Complex.arg ⟨x, y⟩

/-- C++ `std::round`: round half away from zero (differs from Mathlib's
`round` on negative half-integers). -/
def cround (x : ℝ) : ℤ := if 0 ≤ x then ⌊x + 1/2⌋ else -⌊-x + 1/2⌋

/-- The angle `phi` computed at the start of `get_phi`
(`tracing.cpp:604-606`): `atan2(y, x)` shifted into `[0, 2*pi)`. -/
def phi0 (x y : ℝ) : ℝ :=
  let phi := atan2 y x
  if phi < 0 then phi + 2*π else phi

/-- `get_phi` (`tracing.cpp:603-621`).  The local `phi_near_mod`
(`std::fmod(phi_near, 2*M_PI)`) of the C++ is dead code (never read) and is
omitted. -/
def get_phi (x y phi_near : ℝ) : ℝ :=
  let phi := phi0 x y
  let nearest_multiple : ℝ := (cround (phi_near/(2*π)) : ℝ) * 2*π
  let opt1 := nearest_multiple - 2*π + phi
  let opt2 := nearest_multiple + phi
  let opt3 := nearest_multiple + 2*π + phi
  let dist1 := |opt1 - phi_near|
  let dist2 := |opt2 - phi_near|
  let dist3 := |opt3 - phi_near|
  if dist1 ≤ min dist2 dist3 then opt1
  else if dist2 ≤ min dist1 dist3 then opt2
  else opt3

/-- Chart decoding used by every Boozer RHS (`tracing.cpp:111-122` and its
clones): map the first two state components of the integration chart back to
the canonical flux coordinates `(s, theta)`. -/
def to_canonical (axis : ℕ) (y0 y1 : ℝ) : ℝ × ℝ :=
  if axis = 1 then (y0^2 + y1^2, atan2 y1 y0)
  else if axis = 2 then (Real.sqrt (y0^2 + y1^2), atan2 y1 y0)
  else (y0, y1)

/-- Chart encoding used by the Boozer trace entry points
(`tracing.cpp:886-892`): map canonical `(s, theta)` to the first two state
components of the integration chart. -/
def from_canonical (axis : ℕ) (s θ : ℝ) : ℝ × ℝ :=
  if axis = 1 then (Real.sqrt s * Real.cos θ, Real.sqrt s * Real.sin θ)
  else if axis = 2 then (s * Real.cos θ, s * Real.sin θ)
  else (s, θ)

/-- The `ykeep` transformation of `solve` (`tracing.cpp:669-676` and its
clones at 705-713, 746-753, 764-771, 785-792): copy the state and rewrite
components 0 and 1 into canonical coordinates according to the chart. -/
def canonicalize (axis : ℕ) (y : List ℝ) : List ℝ :=
  if axis = 1 then
    (y.set 0 ((y.getD 0 0)^2 + (y.getD 1 0)^2)).set 1 (atan2 (y.getD 1 0) (y.getD 0 0))
  else if axis = 2 then
    (y.set 0 (Real.sqrt ((y.getD 0 0)^2 + (y.getD 1 0)^2))).set 1 (atan2 (y.getD 1 0) (y.getD 0 0))
  else y

/-- The inline sign computation of the v-parallel crossing test
(`tracing.cpp:696`): `(a > 0) ? 1 : ((a < 0) ? -1 : 0)`. -/
def sgn (x : ℝ) : ℤ := if 0 < x then 1 else if x < 0 then -1 else 0

/-- A stopping criterion (`StoppingCriterion::operator()` in `tracing.h`):
`test(iter, dt, t, s_or_x, theta_or_y, zeta_or_z, vpar)`.  The four state
arguments are the reads `ykeep[0] .. ykeep[3]` of `tracing.cpp:772`; the
embedding makes each indexing total by passing `List.get?`, so a criterion
receives `none` exactly when the C++ read is out of bounds. -/
abbrev StoppingCriterion := ℕ → ℝ → ℝ → Option ℝ → Option ℝ → Option ℝ → Option ℝ → Bool

/-- Oracle for the external Boost integrator and root solver (see the file
header).  `stepT n` is the time after n accepted steps (`stepT 0 = 0`),
`calcState n t` the dense output of step n at time t, `root f a b` the
refined root of f in the bracket `[a, b]`. -/
structure Integrator where
  stepT : ℕ → ℝ
  calcState : ℕ → ℝ → List ℝ
  root : (ℝ → ℝ) → ℝ → ℝ → ℝ

/-- The arguments of `solve` (`tracing.cpp:639-642`) that stay fixed over
the loop.  `dt`, `dtmax`, `abstol`, `reltol` of the C++ signature only
parameterize the external stepper and root tolerance and are absorbed by
the `Integrator` oracle.  `junkT` and `junkV` stand for the indeterminate
initial contents of the locals `t_current` and `vpar_current`
(`tracing.cpp:663`), which the non-flux path of the C++ never assigns. -/
structure SolveParams where
  I : Integrator
  axis : ℕ
  tmax : ℝ
  phis : List ℝ
  omegas : List ℝ
  criteria : List StoppingCriterion
  vpars : List ℝ
  phisStop : Bool
  vparsStop : Bool
  flux : Bool
  forget : Bool
  junkT : ℝ
  junkV : ℝ

/-- The mutable state of the `solve` loop (`tracing.cpp:643-666`). -/
structure SolveSt where
  t : ℝ
  y : List ℝ
  iter : ℕ
  stop : Bool
  tLast : ℝ
  phiLast : ℝ
  vparLast : ℝ
  res : List (List ℝ)
  hits : List (List ℝ)

/-- The v-parallel plane scan (`tracing.cpp:694-721`).  `k` is the index of
the just-completed step, `[tlast, tcur]` its bracket; the `break` of the
C++ is the early return in the `vparsStop` branch. -/
def scanVpars (I : Integrator) (axis k : ℕ) (tlast tcur vplast vpcur : ℝ)
    (phisLen : ℕ) (vparsStop : Bool) : List ℝ → ℕ → SolveSt → SolveSt
  | [], _, st => st
  | vpar :: rest, i, st =>
    if vplast - vpar ≠ 0 ∧ vpcur - vpar ≠ 0 ∧ sgn (vplast - vpar) ≠ sgn (vpcur - vpar) then
      let rootfun : ℝ → ℝ := fun tt => (I.calcState k tt).getD 3 0 - vpar
      let troot := I.root rootfun tlast tcur
      let ykeep := canonicalize axis (I.calcState k troot)
      let st' := { st with hits := st.hits ++ [troot :: ((i : ℝ) + (phisLen : ℝ)) :: ykeep] }
      if vparsStop then
        { st' with res := st'.res ++ [troot :: ykeep], stop := true }
      else
        scanVpars I axis k tlast tcur vplast vpcur phisLen vparsStop rest (i+1) st'
    else
      scanVpars I axis k tlast tcur vplast vpcur phisLen vparsStop rest (i+1) st

/-- The (phi - omega t) plane scan (`tracing.cpp:722-761`).  `tLastGlob`,
`tCurGlob`, `phiLast`, `phiCur` are the loop variables `t_last`,
`t_current`, `phi_last`, `phi_current`; `[tlast, tcur]` is the step
bracket.  The release-mode no-op `assert` at `tracing.cpp:731` is
omitted. -/
def scanPhis (I : Integrator) (axis k : ℕ) (tlast tcur : ℝ)
    (tLastGlob tCurGlob phiLast phiCur : ℝ) (flux phisStop : Bool) :
    List (ℝ × ℝ) → ℕ → SolveSt → SolveSt
  | [], _, st => st
  | (phi, omega) :: rest, i, st =>
    let phase_last := phiLast - omega * tLastGlob
    let phase_current := phiCur - omega * tCurGlob
    if tLastGlob ≠ 0 ∧ ⌊(phase_last - phi)/(2*π)⌋ ≠ ⌊(phase_current - phi)/(2*π)⌋ then
      let fak := cround (((phase_last + phase_current)/2 - phi)/(2*π))
      let phase_shift := (fak : ℝ) * (2*π) + phi
      let rootfun : ℝ → ℝ := fun tt =>
        (if flux then (I.calcState k tt).getD 2 0
         else get_phi ((I.calcState k tt).getD 0 0) ((I.calcState k tt).getD 1 0) phiLast)
        - omega * tt - phase_shift
      let troot := I.root rootfun tlast tcur
      let ykeep := canonicalize axis (I.calcState k troot)
      let st' := { st with hits := st.hits ++ [troot :: (i : ℝ) :: ykeep] }
      if phisStop then
        { st' with res := st'.res ++ [troot :: ykeep], stop := true }
      else
        scanPhis I axis k tlast tcur tLastGlob tCurGlob phiLast phiCur flux phisStop rest (i+1) st'
    else
      scanPhis I axis k tlast tcur tLastGlob tCurGlob phiLast phiCur flux phisStop rest (i+1) st

/-- The stopping-criterion scan (`tracing.cpp:763-778`).  Arguments are
`(iter, dt, t, ykeep[0], ykeep[1], ykeep[2], ykeep[3])`; the state reads
are total (`List.get?`), so `ykeep[3]` is `none` for a size-3 state. -/
def scanCrits (axis iter : ℕ) (dt t : ℝ) (y : List ℝ) :
    List StoppingCriterion → ℕ → SolveSt → SolveSt
  | [], _, st => st
  | c :: rest, i, st =>
    let ykeep := canonicalize axis y
    if c iter dt t (ykeep.get? 0) (ykeep.get? 1) (ykeep.get? 2) (ykeep.get? 3) then
      { st with stop := true,
                res := st.res ++ [t :: ykeep],
                hits := st.hits ++ [t :: (-1 - (i : ℝ)) :: ykeep] }
    else scanCrits axis iter dt t y rest (i+1) st

/-- The loop variable `t_current` after the step of iteration `st.iter + 1`
(`tracing.cpp:683-689`): assigned only on the flux path; on the non-flux
path the C++ leaves the local indeterminate (`junkT`). -/
def tCurrentOf (p : SolveParams) (st : SolveSt) : ℝ :=
  if p.flux then p.I.stepT (st.iter + 1) else p.junkT

/-- The loop variable `phi_current` after the step (`tracing.cpp:683-689`):
`y[2]` on the flux path, `get_phi(y[0], y[1], phi_last)` otherwise. -/
def phiCurrentOf (p : SolveParams) (st : SolveSt) : ℝ :=
  let y := p.I.calcState (st.iter + 1) (p.I.stepT (st.iter + 1))
  if p.flux then y.getD 2 0 else get_phi (y.getD 0 0) (y.getD 1 0) st.phiLast

/-- The loop variable `vpar_current` after the step (`tracing.cpp:683-689`):
assigned (`y[3]`) only on the flux path; indeterminate (`junkV`)
otherwise. -/
def vparCurrentOf (p : SolveParams) (st : SolveSt) : ℝ :=
  if p.flux then (p.I.calcState (st.iter + 1) (p.I.stepT (st.iter + 1))).getD 3 0 else p.junkV

/-- Lines `tracing.cpp:668-678`: append the canonical sample at the top of
the loop body unless `forget_exact_path` is set and `t > 0`. -/
def stepSample (p : SolveParams) (st : SolveSt) : SolveSt :=
  if ¬p.forget ∨ st.t = 0 then
    { st with res := st.res ++ [st.t :: canonicalize p.axis st.y] }
  else st

/-- Lines `tracing.cpp:679-682`: one accepted step of the dense stepper;
`t` and `y` become the stepper's current time and state, `iter` is
incremented. -/
def stepAdvance (p : SolveParams) (st : SolveSt) : SolveSt :=
  { stepSample p st with
    t := p.I.stepT (st.iter + 1),
    y := p.I.calcState (st.iter + 1) (p.I.stepT (st.iter + 1)),
    iter := st.iter + 1 }

/-- Lines `tracing.cpp:694-721`: the v-parallel plane scan of the step. -/
def stepScanV (p : SolveParams) (st : SolveSt) : SolveSt :=
  scanVpars p.I p.axis (st.iter + 1) (p.I.stepT st.iter) (p.I.stepT (st.iter + 1))
    st.vparLast (vparCurrentOf p st) p.phis.length p.vparsStop p.vpars 0
    (stepAdvance p st)

/-- Lines `tracing.cpp:722-761`: the (phi - omega t) plane scan of the
step. -/
def stepScanP (p : SolveParams) (st : SolveSt) : SolveSt :=
  scanPhis p.I p.axis (st.iter + 1) (p.I.stepT st.iter) (p.I.stepT (st.iter + 1))
    st.tLast (tCurrentOf p st) st.phiLast (phiCurrentOf p st) p.flux p.phisStop
    (p.phis.zip p.omegas) 0 (stepScanV p st)

/-- Lines `tracing.cpp:762-778`: the stopping-criterion scan of the step
(`dt = tcurrent - tlast` from `tracing.cpp:692`). -/
def stepScanC (p : SolveParams) (st : SolveSt) : SolveSt :=
  scanCrits p.axis (st.iter + 1) (p.I.stepT (st.iter + 1) - p.I.stepT st.iter)
    (p.I.stepT (st.iter + 1)) (p.I.calcState (st.iter + 1) (p.I.stepT (st.iter + 1)))
    p.criteria 0 (stepScanP p st)

/-- One iteration of the `do` loop of `solve` (`tracing.cpp:667-781`):
sample, step, the three scans, then the `t_last` / `phi_last` / `vpar_last`
updates of `tracing.cpp:779-781`.  On the non-flux path the C++ never
assigns `t_current` / `vpar_current`; their indeterminate contents are the
junk parameters. -/
def stepBody (p : SolveParams) (st : SolveSt) : SolveSt :=
  { stepScanC p st with
    tLast := tCurrentOf p st,
    phiLast := phiCurrentOf p st,
    vparLast := vparCurrentOf p st }

/-- The `do ... while (t < tmax && !stop)` loop of `solve`
(`tracing.cpp:667-782`), with explicit fuel (the C++ loop has no iteration
bound of its own). -/
def solveLoop (p : SolveParams) : ℕ → SolveSt → SolveSt
  | 0, st => st
  | fuel+1, st =>
    let st' := stepBody p st
    if st'.t < p.tmax ∧ st'.stop = false then solveLoop p fuel st' else st'

/-- The initial loop state of `solve` (`tracing.cpp:649-662`). -/
def solveInit (p : SolveParams) (y : List ℝ) : SolveSt :=
  { t := 0, y := y, iter := 0, stop := false,
    tLast := 0,
    phiLast := if p.flux then y.getD 2 0 else get_phi (y.getD 0 0) (y.getD 1 0) π,
    vparLast := if p.flux then y.getD 3 0 else 0,
    res := [], hits := [] }

/-- The normal-completion epilogue of `solve` (`tracing.cpp:783-794`):
when no stop fired, interpolate the last step at `tmax` and append the
final sample. -/
def solveFinal (p : SolveParams) (st : SolveSt) : SolveSt :=
  if st.stop = false then
    let y := p.I.calcState st.iter p.tmax
    { st with y := y, res := st.res ++ [p.tmax :: canonicalize p.axis y] }
  else st

/-- `solve` (`tracing.cpp:637-796`): returns `(res, res_phi_hits)`. -/
def solve (p : SolveParams) (y : List ℝ) (fuel : ℕ) :
    List (List ℝ) × List (List ℝ) :=
  let st := solveFinal p (solveLoop p fuel (solveInit p y))
  (st.res, st.hits)

/-- Observation helper: the time stamps of a returned trajectory (or event)
list; each record stores its time in component 0 (`tracing.cpp:677`). -/
def sampleTimes (r : List (List ℝ)) : List ℝ := r.map (fun l => l.getD 0 0)

/-- Observation helper: every loop-state field except the trajectory `res`
(used to state that the `forget_exact_path` flag influences nothing but the
recorded trajectory). -/
def SolveSt.core (s : SolveSt) :
    ℝ × List ℝ × ℕ × Bool × ℝ × ℝ × ℝ × List (List ℝ) :=
  (s.t, s.y, s.iter, s.stop, s.tLast, s.phiLast, s.vparLast, s.hits)

/-- Observation helper: a stopping criterion that fires exactly when the
v-parallel argument it receives is an out-of-bounds read (`none`). -/
def vparProbe : StoppingCriterion := fun _ _ _ _ _ _ v => v.isNone

/-- `fieldline_tracing` (`tracing.cpp:956-971`): `FieldlineRHS` has
`Size = 3` and `axis = false` (i.e. chart 0); `omegas` is all zeros, no
v-parallel planes, all flags default to `false`.  `dtmax` and `dt` only
seed the external stepper (oracle `I`). -/
def fieldline_tracing (I : Integrator) (junkT junkV : ℝ) (AbsB : ℝ)
    (xyz_init : List ℝ) (tmax abstol reltol : ℝ) (phis : List ℝ)
    (stopping_criteria : List StoppingCriterion) (fuel : ℕ) :
    List (List ℝ) × List (List ℝ) :=
  let r0 := Real.sqrt ((xyz_init.getD 0 0)^2 + (xyz_init.getD 1 0)^2)
  let dtmax := r0 * 0.5 * π / AbsB
  let dt := 1e-5 * dtmax
  let omegas : List ℝ := List.replicate phis.length 0
  solve { I := I, axis := 0, tmax := tmax, phis := phis, omegas := omegas,
          criteria := stopping_criteria, vpars := [], phisStop := false,
          vparsStop := false, flux := false, forget := false,
          junkT := junkT, junkV := junkV } xyz_init fuel

/-- `particle_guiding_center_tracing` (`tracing.cpp:800-824`): reads
`|B|` at the initial point (field-oracle argument `AbsB`), derives `mu`,
and for `vacuum` builds `GuidingCenterVacuumRHS` (`Size = 4`,
`axis = false`) and delegates to `solve` with empty `vpars` and all flags
false; otherwise it throws a `std::logic_error`, modelled as
`Except.error`. -/
def particle_guiding_center_tracing (I : Integrator) (junkT junkV : ℝ)
    (AbsB : ℝ) (xyz_init : List ℝ) (m q vtotal vtang tmax abstol reltol : ℝ)
    (vacuum : Bool) (phis omegas : List ℝ)
    (stopping_criteria : List StoppingCriterion) (fuel : ℕ) :
    Except String (List (List ℝ) × List (List ℝ)) :=
  let vperp2 := vtotal*vtotal - vtang*vtang
  let mu := vperp2/(2*AbsB)
  let y : List ℝ := [xyz_init.getD 0 0, xyz_init.getD 1 0, xyz_init.getD 2 0, vtang]
  let r0 := Real.sqrt ((xyz_init.getD 0 0)^2 + (xyz_init.getD 1 0)^2)
  let dtmax := r0 * 0.5 * π / vtotal
  let dt := 1e-3 * dtmax
  let p : SolveParams :=
    { I := I, axis := 0, tmax := tmax, phis := phis, omegas := omegas,
      criteria := stopping_criteria, vpars := [], phisStop := false,
      vparsStop := false, flux := false, forget := false,
      junkT := junkT, junkV := junkV }
  if vacuum then
    Except.ok (solve p y fuel)
  else
    Except.error "Guiding center right hand side currently only implemented for vacuum fields."

end

/-! ### Properties of the phase-unwrapping helper `get_phi` -/

lemma abs_sub_cround (x : ℝ) : |x - (cround x : ℝ)| ≤ 1/2 := by
  unfold cround
  split_ifs with h
  · rw [show (⌊x + 1/2⌋ : ℤ) = round x from (round_eq x).symm]
    exact abs_sub_round x
  · rw [show (⌊-x + 1/2⌋ : ℤ) = round (-x) from (round_eq (-x)).symm]
    have he : x - ((-round (-x) : ℤ) : ℝ) = -(-x - (round (-x) : ℝ)) := by
      push_cast; ring
    rw [he, abs_neg]
    exact abs_sub_round (-x)

lemma phi0_mem (x y : ℝ) : 0 ≤ phi0 x y ∧ phi0 x y < 2*π := by
  simp only [phi0, atan2]
  have h1 := Complex.neg_pi_lt_arg (⟨x, y⟩ : ℂ)
  have h2 := Complex.arg_le_pi (⟨x, y⟩ : ℂ)
  have hπ := Real.pi_pos
  split_ifs with h
  · constructor <;> linarith
  · have h0 := not_lt.mp h
    constructor <;> linarith

lemma get_phi_min (x y r : ℝ) :
    (get_phi x y r = phi0 x y + 2*π*((cround (r/(2*π)) : ℝ) - 1) ∨
     get_phi x y r = phi0 x y + 2*π*(cround (r/(2*π)) : ℝ) ∨
     get_phi x y r = phi0 x y + 2*π*((cround (r/(2*π)) : ℝ) + 1)) ∧
    |get_phi x y r - r| ≤ |phi0 x y + 2*π*((cround (r/(2*π)) : ℝ) - 1) - r| ∧
    |get_phi x y r - r| ≤ |phi0 x y + 2*π*(cround (r/(2*π)) : ℝ) - r| ∧
    |get_phi x y r - r| ≤ |phi0 x y + 2*π*((cround (r/(2*π)) : ℝ) + 1) - r| := by
  have e1 : (cround (r/(2*π)) : ℝ)*2*π - 2*π + phi0 x y
      = phi0 x y + 2*π*((cround (r/(2*π)) : ℝ) - 1) := by ring
  have e2 : (cround (r/(2*π)) : ℝ)*2*π + phi0 x y
      = phi0 x y + 2*π*(cround (r/(2*π)) : ℝ) := by ring
  have e3 : (cround (r/(2*π)) : ℝ)*2*π + 2*π + phi0 x y
      = phi0 x y + 2*π*((cround (r/(2*π)) : ℝ) + 1) := by ring
  simp only [get_phi]
  split_ifs with h1 h2
  · rw [e1]
    rw [e1, e2, e3] at h1
    exact ⟨Or.inl rfl, le_refl _,
      le_trans h1 (min_le_left _ _), le_trans h1 (min_le_right _ _)⟩
  · rw [e2]
    rw [e1, e2, e3] at h1 h2
    exact ⟨Or.inr (Or.inl rfl), le_trans h2 (min_le_left _ _), le_refl _,
      le_trans h2 (min_le_right _ _)⟩
  · rw [e3]
    rw [e1, e2, e3] at h1 h2
    push_neg at h1 h2
    rcases min_cases |phi0 x y + 2*π*(cround (r/(2*π)) : ℝ) - r|
        |phi0 x y + 2*π*((cround (r/(2*π)) : ℝ) + 1) - r| with hm | hm <;>
      rcases min_cases |phi0 x y + 2*π*((cround (r/(2*π)) : ℝ) - 1) - r|
        |phi0 x y + 2*π*((cround (r/(2*π)) : ℝ) + 1) - r| with hm' | hm' <;>
      refine ⟨Or.inr (Or.inr rfl), ?_, ?_, le_refl _⟩ <;> linarith [hm.1, hm'.1]

lemma abs_sub_nearest_multiple (r : ℝ) :
    |r - (cround (r/(2*π)) : ℝ)*(2*π)| ≤ π := by
  have h := abs_sub_cround (r/(2*π))
  have hπ : (0:ℝ) < 2*π := Real.two_pi_pos
  have he : r - (cround (r/(2*π)) : ℝ)*(2*π)
      = (r/(2*π) - (cround (r/(2*π)) : ℝ))*(2*π) := by
    field_simp
    ring
  rw [he, abs_mul, abs_of_pos hπ]
  nlinarith [abs_nonneg (r/(2*π) - (cround (r/(2*π)) : ℝ))]

lemma get_phi_within_pi (x y r : ℝ) : |get_phi x y r - r| ≤ π := by
  obtain ⟨-, hd1, hd2, -⟩ := get_phi_min x y r
  obtain ⟨hφ0, hφ2⟩ := phi0_mem x y
  have hπ := Real.pi_pos
  have hNr := abs_le.mp (abs_sub_nearest_multiple r)
  rcases le_or_lt (phi0 x y + 2*π*(cround (r/(2*π)) : ℝ) - r) π with hd | hd
  · refine le_trans hd2 (abs_le.mpr ⟨?_, hd⟩)
    linarith [hNr.2]
  · refine le_trans hd1 (abs_le.mpr ⟨?_, ?_⟩) <;> linarith [hNr.1]

lemma get_phi_le_branch (x y r : ℝ) (k : ℤ) :
    |get_phi x y r - r| ≤ |phi0 x y + 2*π*(k:ℝ) - r| := by
  obtain ⟨-, hd1, hd2, hd3⟩ := get_phi_min x y r
  by_cases h1 : k = cround (r/(2*π)) - 1
  · subst h1; convert hd1 using 3; push_cast; ring
  by_cases h2 : k = cround (r/(2*π))
  · subst h2; exact hd2
  by_cases h3 : k = cround (r/(2*π)) + 1
  · subst h3; convert hd3 using 3; push_cast; ring
  have hfar : k ≤ cround (r/(2*π)) - 2 ∨ cround (r/(2*π)) + 2 ≤ k := by omega
  have hw := get_phi_within_pi x y r
  obtain ⟨hφ0, hφ2⟩ := phi0_mem x y
  have hπ := Real.pi_pos
  have hNr := abs_le.mp (abs_sub_nearest_multiple r)
  refine le_trans hw ?_
  rcases hfar with hk | hk
  · have hkr : (k:ℝ) ≤ (cround (r/(2*π)) : ℝ) - 2 := by exact_mod_cast hk
    have hmul : 2*π*(k:ℝ) ≤ 2*π*((cround (r/(2*π)) : ℝ) - 2) :=
      mul_le_mul_of_nonneg_left hkr (by positivity)
    have hv : phi0 x y + 2*π*(k:ℝ) - r ≤ -π := by nlinarith [hNr.1]
    calc π ≤ -(phi0 x y + 2*π*(k:ℝ) - r) := by linarith
    _ ≤ |phi0 x y + 2*π*(k:ℝ) - r| := neg_le_abs _
  · have hkr : (cround (r/(2*π)) : ℝ) + 2 ≤ (k:ℝ) := by exact_mod_cast hk
    have hmul : 2*π*((cround (r/(2*π)) : ℝ) + 2) ≤ 2*π*(k:ℝ) :=
      mul_le_mul_of_nonneg_left hkr (by positivity)
    have hv : π ≤ phi0 x y + 2*π*(k:ℝ) - r := by nlinarith [hNr.2]
    exact le_trans hv (le_abs_self _)

/-- C10: `get_phi(x, y, ref)` returns an angle of the form `phi0 + 2*pi*k`
with `k` an integer, where `phi0 = atan2(y, x)` shifted into `[0, 2*pi)`,
that is a branch closest to `ref`; in particular
`|get_phi (cos a) (sin a) r - r| <= pi` for all real `a`, `r`. -/
theorem get_phi_nearest_branch (x y r : ℝ) :
    (∃ k : ℤ, get_phi x y r = phi0 x y + 2*π*(k:ℝ)) ∧
    (∀ k : ℤ, |get_phi x y r - r| ≤ |phi0 x y + 2*π*(k:ℝ) - r|) ∧
    |get_phi x y r - r| ≤ π ∧
    (∀ a ref : ℝ, |get_phi (Real.cos a) (Real.sin a) ref - ref| ≤ π) := by
  refine ⟨?_, fun k => get_phi_le_branch x y r k, get_phi_within_pi x y r,
    fun a ref => get_phi_within_pi _ _ _⟩
  obtain ⟨hc, -⟩ := get_phi_min x y r
  rcases hc with h | h | h
  · exact ⟨cround (r/(2*π)) - 1, by rw [h]; push_cast; ring⟩
  · exact ⟨cround (r/(2*π)), by rw [h]⟩
  · exact ⟨cround (r/(2*π)) + 1, by rw [h]; push_cast; ring⟩

/-! ### Chart round trip -/

lemma atan2_real_smul (a b : ℝ) {r : ℝ} (hr : 0 < r) :
    atan2 (r*b) (r*a) = atan2 b a := by
  unfold atan2
  have he : (⟨r*a, r*b⟩ : ℂ) = (r : ℂ) * ⟨a, b⟩ := by
    apply Complex.ext <;>
      simp [Complex.mul_re, Complex.mul_im]
  rw [he, Complex.arg_real_mul _ hr]

lemma atan2_sin_cos (θ : ℝ) :
    ∃ k : ℤ, atan2 (Real.sin θ) (Real.cos θ) = θ + 2*π*(k:ℝ) := by
  refine ⟨⌊(π - θ) / (2 * π)⌋, ?_⟩
  unfold atan2
  rw [Complex.mk_eq_add_mul_I]
  have h := Complex.arg_cos_add_sin_mul_I_sub θ
  push_cast at h ⊢
  linarith

/-- C9: for every chart `c` (0, 1 or 2) and every `s > 0` and angle
`theta`, encoding `(s, theta)` into the chart and decoding back reproduces
`s` exactly and `theta` up to an integer multiple of `2*pi` (over exact
real arithmetic). -/
theorem chart_round_trip (axis : ℕ) (s θ : ℝ) (hs : 0 < s) :
    ∃ k : ℤ,
      to_canonical axis (from_canonical axis s θ).1 (from_canonical axis s θ).2
        = (s, θ + 2*π*(k:ℝ)) := by
  have hsc := Real.sin_sq_add_cos_sq θ
  by_cases ha1 : axis = 1
  · obtain ⟨k, hk⟩ := atan2_sin_cos θ
    refine ⟨k, ?_⟩
    simp only [to_canonical, from_canonical, ha1, if_true, if_pos rfl]
    have hss : Real.sqrt s ^ 2 = s := Real.sq_sqrt hs.le
    have h1 : (Real.sqrt s * Real.cos θ)^2 + (Real.sqrt s * Real.sin θ)^2 = s := by
      nlinarith
    have h2 : atan2 (Real.sqrt s * Real.sin θ) (Real.sqrt s * Real.cos θ)
        = θ + 2*π*(k:ℝ) := by
      rw [atan2_real_smul _ _ (Real.sqrt_pos.mpr hs), hk]
    rw [h1, h2]
  · by_cases ha2 : axis = 2
    · obtain ⟨k, hk⟩ := atan2_sin_cos θ
      refine ⟨k, ?_⟩
      subst ha2
      have h1 : Real.sqrt ((s * Real.cos θ)^2 + (s * Real.sin θ)^2) = s := by
        have he : (s * Real.cos θ)^2 + (s * Real.sin θ)^2 = s^2 := by nlinarith
        rw [he, Real.sqrt_sq hs.le]
      have h2 : atan2 (s * Real.sin θ) (s * Real.cos θ) = θ + 2*π*(k:ℝ) := by
        rw [atan2_real_smul _ _ hs, hk]
      simp only [to_canonical, from_canonical]
      norm_num [h1, h2]
    · refine ⟨0, ?_⟩
      simp only [to_canonical, from_canonical, ha1, ha2, if_false]
      norm_num

/-- Witness for C9 at chart 1, `s = 1`, `theta = 0`. -/
theorem chart_round_trip_witness :
    (0:ℝ) < 1 ∧
      ∃ k : ℤ,
        to_canonical 1 (from_canonical 1 1 0).1 (from_canonical 1 1 0).2
          = (1, 0 + 2*π*(k:ℝ)) :=
  ⟨by norm_num, chart_round_trip 1 1 0 (by norm_num)⟩

/-! ### Structural lemmas about the scans of the solve loop -/

lemma scanVpars_fields (I : Integrator) (axis k : ℕ) (tlast tcur vplast vpcur : ℝ)
    (phisLen : ℕ) (vstop : Bool) (l : List ℝ) (i : ℕ) (st : SolveSt) :
    (scanVpars I axis k tlast tcur vplast vpcur phisLen vstop l i st).t = st.t ∧
    (scanVpars I axis k tlast tcur vplast vpcur phisLen vstop l i st).y = st.y ∧
    (scanVpars I axis k tlast tcur vplast vpcur phisLen vstop l i st).iter = st.iter ∧
    (scanVpars I axis k tlast tcur vplast vpcur phisLen vstop l i st).tLast = st.tLast ∧
    (scanVpars I axis k tlast tcur vplast vpcur phisLen vstop l i st).phiLast = st.phiLast ∧
    (scanVpars I axis k tlast tcur vplast vpcur phisLen vstop l i st).vparLast = st.vparLast := by
  induction l generalizing i st with
  | nil => exact ⟨rfl, rfl, rfl, rfl, rfl, rfl⟩
  | cons v rest ih =>
    simp only [scanVpars]
    split_ifs with h1 h2
    · exact ⟨rfl, rfl, rfl, rfl, rfl, rfl⟩
    · exact ih (i+1) _
    · exact ih (i+1) st

lemma scanPhis_fields (I : Integrator) (axis k : ℕ) (tlast tcur : ℝ)
    (tG tC phiL phiC : ℝ) (flux pstop : Bool) (l : List (ℝ × ℝ)) (i : ℕ) (st : SolveSt) :
    (scanPhis I axis k tlast tcur tG tC phiL phiC flux pstop l i st).t = st.t ∧
    (scanPhis I axis k tlast tcur tG tC phiL phiC flux pstop l i st).y = st.y ∧
    (scanPhis I axis k tlast tcur tG tC phiL phiC flux pstop l i st).iter = st.iter ∧
    (scanPhis I axis k tlast tcur tG tC phiL phiC flux pstop l i st).tLast = st.tLast ∧
    (scanPhis I axis k tlast tcur tG tC phiL phiC flux pstop l i st).phiLast = st.phiLast ∧
    (scanPhis I axis k tlast tcur tG tC phiL phiC flux pstop l i st).vparLast = st.vparLast := by
  induction l generalizing i st with
  | nil => exact ⟨rfl, rfl, rfl, rfl, rfl, rfl⟩
  | cons v rest ih =>
    simp only [scanPhis]
    split_ifs with h1 h2 <;>
      first
        | exact ⟨rfl, rfl, rfl, rfl, rfl, rfl⟩
        | exact ih (i+1) _

lemma scanCrits_fields (axis iter : ℕ) (dt t : ℝ) (y : List ℝ)
    (l : List StoppingCriterion) (i : ℕ) (st : SolveSt) :
    (scanCrits axis iter dt t y l i st).t = st.t ∧
    (scanCrits axis iter dt t y l i st).y = st.y ∧
    (scanCrits axis iter dt t y l i st).iter = st.iter ∧
    (scanCrits axis iter dt t y l i st).tLast = st.tLast ∧
    (scanCrits axis iter dt t y l i st).phiLast = st.phiLast ∧
    (scanCrits axis iter dt t y l i st).vparLast = st.vparLast := by
  induction l generalizing i st with
  | nil => exact ⟨rfl, rfl, rfl, rfl, rfl, rfl⟩
  | cons c rest ih =>
    simp only [scanCrits]
    split_ifs with h1
    · exact ⟨rfl, rfl, rfl, rfl, rfl, rfl⟩
    · exact ih (i+1) st

lemma scanVpars_nostop (I : Integrator) (axis k : ℕ) (tlast tcur vplast vpcur : ℝ)
    (phisLen : ℕ) (l : List ℝ) (i : ℕ) (st : SolveSt) :
    (scanVpars I axis k tlast tcur vplast vpcur phisLen false l i st).res = st.res ∧
    (scanVpars I axis k tlast tcur vplast vpcur phisLen false l i st).stop = st.stop := by
  induction l generalizing i st with
  | nil => exact ⟨rfl, rfl⟩
  | cons v rest ih =>
    simp only [scanVpars]
    split_ifs with h1 h2
    all_goals first
      | exact h2.elim
      | exact ih (i+1) _

lemma scanPhis_nostop (I : Integrator) (axis k : ℕ) (tlast tcur : ℝ)
    (tG tC phiL phiC : ℝ) (flux : Bool) (l : List (ℝ × ℝ)) (i : ℕ) (st : SolveSt) :
    (scanPhis I axis k tlast tcur tG tC phiL phiC flux false l i st).res = st.res ∧
    (scanPhis I axis k tlast tcur tG tC phiL phiC flux false l i st).stop = st.stop := by
  induction l generalizing i st with
  | nil => exact ⟨rfl, rfl⟩
  | cons v rest ih =>
    simp only [scanPhis]
    split_ifs with h1 h2 h3
    all_goals first
      | exact h2.elim
      | exact ih (i+1) _

lemma scanCrits_cases (axis iter : ℕ) (dt t : ℝ) (y : List ℝ)
    (l : List StoppingCriterion) (i : ℕ) (st : SolveSt) :
    ((scanCrits axis iter dt t y l i st).res = st.res ∧
     (scanCrits axis iter dt t y l i st).stop = st.stop ∧
     (scanCrits axis iter dt t y l i st).hits = st.hits) ∨
    ((scanCrits axis iter dt t y l i st).res = st.res ++ [t :: canonicalize axis y] ∧
     (scanCrits axis iter dt t y l i st).stop = true ∧
     ∃ j : ℝ, (scanCrits axis iter dt t y l i st).hits
        = st.hits ++ [t :: j :: canonicalize axis y]) := by
  induction l generalizing i st with
  | nil => exact Or.inl ⟨rfl, rfl, rfl⟩
  | cons c rest ih =>
    simp only [scanCrits]
    split_ifs with h1
    · exact Or.inr ⟨rfl, rfl, ⟨-1 - (i:ℝ), rfl⟩⟩
    · exact ih (i+1) st

lemma scanCrits_nofire (axis iter : ℕ) (dt t : ℝ) (y : List ℝ)
    (l : List StoppingCriterion) (i : ℕ) (st : SolveSt)
    (h : ∀ c ∈ l, ∀ a b c' d e f g, c a b c' d e f g = false) :
    scanCrits axis iter dt t y l i st = st := by
  induction l generalizing i st with
  | nil => rfl
  | cons c rest ih =>
    simp only [scanCrits]
    rw [h c (List.mem_cons_self c rest)]
    simp only [if_neg (Bool.false_ne_true)]
    exact ih (i+1) st (fun c' hc' => h c' (List.mem_cons_of_mem c hc'))

/-! ### Event times lie in the completed step's bracket -/

lemma scanVpars_hits (I : Integrator) (axis k : ℕ) (tlast tcur vplast vpcur : ℝ)
    (phisLen : ℕ) (vstop : Bool) (l : List ℝ) (i : ℕ) (st : SolveSt)
    (hroot : ∀ f a b, a ≤ b → a ≤ I.root f a b ∧ I.root f a b ≤ b)
    (hbr : tlast ≤ tcur) :
    ∀ e ∈ (scanVpars I axis k tlast tcur vplast vpcur phisLen vstop l i st).hits,
      e ∈ st.hits ∨ (tlast ≤ e.getD 0 0 ∧ e.getD 0 0 ≤ tcur) := by
  induction l generalizing i st with
  | nil => exact fun e he => Or.inl he
  | cons v rest ih =>
    intro e he
    simp only [scanVpars] at he
    split_ifs at he with h1 h2
    · rcases List.mem_append.mp he with h | h
      · exact Or.inl h
      · right
        simp only [List.mem_singleton] at h
        subst h
        simpa using hroot _ tlast tcur hbr
    · rcases ih (i+1) _ e he with h | h
      · rcases List.mem_append.mp h with h' | h'
        · exact Or.inl h'
        · right
          simp only [List.mem_singleton] at h'
          subst h'
          simpa using hroot _ tlast tcur hbr
      · exact Or.inr h
    · exact ih (i+1) st e he

lemma scanPhis_hits (I : Integrator) (axis k : ℕ) (tlast tcur : ℝ)
    (tG tC phiL phiC : ℝ) (flux pstop : Bool) (l : List (ℝ × ℝ)) (i : ℕ) (st : SolveSt)
    (hroot : ∀ f a b, a ≤ b → a ≤ I.root f a b ∧ I.root f a b ≤ b)
    (hbr : tlast ≤ tcur) :
    ∀ e ∈ (scanPhis I axis k tlast tcur tG tC phiL phiC flux pstop l i st).hits,
      e ∈ st.hits ∨ (tlast ≤ e.getD 0 0 ∧ e.getD 0 0 ≤ tcur) := by
  induction l generalizing i st with
  | nil => exact fun e he => Or.inl he
  | cons v rest ih =>
    intro e he
    simp only [scanPhis] at he
    split_ifs at he with h1 h2 h3
    all_goals first
      | (rcases List.mem_append.mp he with h | h
         · exact Or.inl h
         · right
           simp only [List.mem_singleton] at h
           subst h
           simpa using hroot _ tlast tcur hbr)
      | (rcases ih (i+1) _ e he with h | h
         · rcases List.mem_append.mp h with h' | h'
           · exact Or.inl h'
           · right
             simp only [List.mem_singleton] at h'
             subst h'
             simpa using hroot _ tlast tcur hbr
         · exact Or.inr h)
      | exact ih (i+1) st e he

lemma scanCrits_hits (axis iter : ℕ) (dt t : ℝ) (y : List ℝ)
    (l : List StoppingCriterion) (i : ℕ) (st : SolveSt) :
    ∀ e ∈ (scanCrits axis iter dt t y l i st).hits,
      e ∈ st.hits ∨ e.getD 0 0 = t := by
  induction l generalizing i st with
  | nil => exact fun e he => Or.inl he
  | cons c rest ih =>
    intro e he
    simp only [scanCrits] at he
    split_ifs at he with h1
    · rcases List.mem_append.mp he with h | h
      · exact Or.inl h
      · right
        simp only [List.mem_singleton] at h
        subst h
        simp
    · exact ih (i+1) st e he

/-! ### The `forget_exact_path` flag only affects the recorded trajectory -/

lemma core_eq_t {A B : SolveSt} (h : A.core = B.core) : A.t = B.t :=
  congrArg (fun x => x.1) h

lemma core_eq_stop {A B : SolveSt} (h : A.core = B.core) : A.stop = B.stop :=
  congrArg (fun x => x.2.2.2.1) h

lemma core_eq_iter {A B : SolveSt} (h : A.core = B.core) : A.iter = B.iter :=
  congrArg (fun x => x.2.2.1) h

lemma core_eq_hits {A B : SolveSt} (h : A.core = B.core) : A.hits = B.hits :=
  congrArg (fun x => x.2.2.2.2.2.2.2) h

lemma scanVpars_core_congr (I : Integrator) (axis k : ℕ)
    (tlast tcur vplast vpcur : ℝ) (phisLen : ℕ) (vstop : Bool)
    (l : List ℝ) (i : ℕ) (st1 st2 : SolveSt) (h : st1.core = st2.core) :
    (scanVpars I axis k tlast tcur vplast vpcur phisLen vstop l i st1).core
      = (scanVpars I axis k tlast tcur vplast vpcur phisLen vstop l i st2).core := by
  obtain ⟨t1, y1, i1, s1, tl1, pl1, vl1, r1, h1⟩ := st1
  obtain ⟨t2, y2, i2, s2, tl2, pl2, vl2, r2, h2⟩ := st2
  simp only [SolveSt.core, Prod.mk.injEq] at h
  obtain ⟨rfl, rfl, rfl, rfl, rfl, rfl, rfl, rfl⟩ := h
  induction l generalizing i h1 r1 r2 with
  | nil => rfl
  | cons v rest ih =>
    simp only [scanVpars]
    split_ifs with hc1 hc2
    all_goals first
      | rfl
      | exact ih (i+1) _ _ _

lemma scanPhis_core_congr (I : Integrator) (axis k : ℕ) (tlast tcur : ℝ)
    (tG tC phiL phiC : ℝ) (flux pstop : Bool)
    (l : List (ℝ × ℝ)) (i : ℕ) (st1 st2 : SolveSt) (h : st1.core = st2.core) :
    (scanPhis I axis k tlast tcur tG tC phiL phiC flux pstop l i st1).core
      = (scanPhis I axis k tlast tcur tG tC phiL phiC flux pstop l i st2).core := by
  obtain ⟨t1, y1, i1, s1, tl1, pl1, vl1, r1, h1⟩ := st1
  obtain ⟨t2, y2, i2, s2, tl2, pl2, vl2, r2, h2⟩ := st2
  simp only [SolveSt.core, Prod.mk.injEq] at h
  obtain ⟨rfl, rfl, rfl, rfl, rfl, rfl, rfl, rfl⟩ := h
  induction l generalizing i h1 r1 r2 with
  | nil => rfl
  | cons v rest ih =>
    simp only [scanPhis]
    split_ifs with hc1 hc2 hc3
    all_goals first
      | rfl
      | exact ih (i+1) _ _ _

lemma scanCrits_core_congr (axis iter : ℕ) (dt t : ℝ) (y : List ℝ)
    (l : List StoppingCriterion) (i : ℕ) (st1 st2 : SolveSt) (h : st1.core = st2.core) :
    (scanCrits axis iter dt t y l i st1).core
      = (scanCrits axis iter dt t y l i st2).core := by
  obtain ⟨t1, y1, i1, s1, tl1, pl1, vl1, r1, h1⟩ := st1
  obtain ⟨t2, y2, i2, s2, tl2, pl2, vl2, r2, h2⟩ := st2
  simp only [SolveSt.core, Prod.mk.injEq] at h
  obtain ⟨rfl, rfl, rfl, rfl, rfl, rfl, rfl, rfl⟩ := h
  induction l generalizing i h1 r1 r2 with
  | nil => rfl
  | cons c rest ih =>
    simp only [scanCrits]
    split_ifs with hc1
    all_goals first
      | rfl
      | exact ih (i+1) _ _ _

lemma core_update_congr (A B : SolveSt) (h : A.core = B.core) (a b c : ℝ) :
    ({ A with tLast := a, phiLast := b, vparLast := c } : SolveSt).core
      = ({ B with tLast := a, phiLast := b, vparLast := c } : SolveSt).core := by
  obtain ⟨t1, y1, i1, s1, tl1, pl1, vl1, r1, h1⟩ := A
  obtain ⟨t2, y2, i2, s2, tl2, pl2, vl2, r2, h2⟩ := B
  simp only [SolveSt.core, Prod.mk.injEq] at h ⊢
  obtain ⟨rfl, rfl, rfl, rfl, rfl, rfl, rfl, rfl⟩ := h
  simp

lemma stepAdvance_core_congr (p : SolveParams) (b1 b2 : Bool) (st1 st2 : SolveSt)
    (h : st1.core = st2.core) :
    (stepAdvance { p with forget := b1 } st1).core
      = (stepAdvance { p with forget := b2 } st2).core := by
  obtain ⟨t1, y1, i1, s1, tl1, pl1, vl1, r1, h1⟩ := st1
  obtain ⟨t2, y2, i2, s2, tl2, pl2, vl2, r2, h2⟩ := st2
  simp only [SolveSt.core, Prod.mk.injEq] at h
  obtain ⟨rfl, rfl, rfl, rfl, rfl, rfl, rfl, rfl⟩ := h
  simp only [stepAdvance, stepSample]
  split_ifs <;> rfl

lemma stepBody_core_congr (p : SolveParams) (b1 b2 : Bool) (st1 st2 : SolveSt)
    (h : st1.core = st2.core) :
    (stepBody { p with forget := b1 } st1).core
      = (stepBody { p with forget := b2 } st2).core := by
  obtain ⟨t1, y1, i1, s1, tl1, pl1, vl1, r1, h1⟩ := st1
  obtain ⟨t2, y2, i2, s2, tl2, pl2, vl2, r2, h2⟩ := st2
  simp only [SolveSt.core, Prod.mk.injEq] at h
  obtain ⟨rfl, rfl, rfl, rfl, rfl, rfl, rfl, rfl⟩ := h
  simp only [stepBody, stepScanC, stepScanP, stepScanV]
  apply core_update_congr
  apply scanCrits_core_congr
  apply scanPhis_core_congr
  apply scanVpars_core_congr
  exact stepAdvance_core_congr p b1 b2 _ _ rfl

lemma solveLoop_core_congr (p : SolveParams) (b1 b2 : Bool) (fuel : ℕ)
    (st1 st2 : SolveSt) (h : st1.core = st2.core) :
    (solveLoop { p with forget := b1 } fuel st1).core
      = (solveLoop { p with forget := b2 } fuel st2).core := by
  induction fuel generalizing st1 st2 with
  | zero => exact h
  | succ n ih =>
    simp only [solveLoop]
    have hb := stepBody_core_congr p b1 b2 st1 st2 h
    have ht := core_eq_t hb
    have hs := core_eq_stop hb
    have hm1 : ({ p with forget := b1 } : SolveParams).tmax = p.tmax := rfl
    have hm2 : ({ p with forget := b2 } : SolveParams).tmax = p.tmax := rfl
    rw [hm1, hm2, ht, hs]
    split_ifs with hc
    · exact ih _ _ hb
    · exact hb

lemma solveFinal_hits (p : SolveParams) (st : SolveSt) :
    (solveFinal p st).hits = st.hits := by
  simp only [solveFinal]
  split_ifs <;> rfl

/-! ### Dissection of one loop iteration -/

lemma stepAdvance_hits (p : SolveParams) (st : SolveSt) :
    (stepAdvance p st).hits = st.hits := by
  simp only [stepAdvance, stepSample]
  split_ifs <;> rfl

lemma stepBody_t (p : SolveParams) (st : SolveSt) :
    (stepBody p st).t = p.I.stepT (st.iter + 1) := by
  simp only [stepBody, stepScanC, stepScanP, stepScanV]
  rw [(scanCrits_fields _ _ _ _ _ _ _ _).1,
    (scanPhis_fields _ _ _ _ _ _ _ _ _ _ _ _ _ _).1,
    (scanVpars_fields _ _ _ _ _ _ _ _ _ _ _ _).1]
  rfl

lemma stepBody_iter (p : SolveParams) (st : SolveSt) :
    (stepBody p st).iter = st.iter + 1 := by
  simp only [stepBody, stepScanC, stepScanP, stepScanV]
  rw [(scanCrits_fields _ _ _ _ _ _ _ _).2.2.1,
    (scanPhis_fields _ _ _ _ _ _ _ _ _ _ _ _ _ _).2.2.1,
    (scanVpars_fields _ _ _ _ _ _ _ _ _ _ _ _).2.2.1]
  rfl

lemma stepBody_y (p : SolveParams) (st : SolveSt) :
    (stepBody p st).y = p.I.calcState (st.iter + 1) (p.I.stepT (st.iter + 1)) := by
  simp only [stepBody, stepScanC, stepScanP, stepScanV]
  rw [(scanCrits_fields _ _ _ _ _ _ _ _).2.1,
    (scanPhis_fields _ _ _ _ _ _ _ _ _ _ _ _ _ _).2.1,
    (scanVpars_fields _ _ _ _ _ _ _ _ _ _ _ _).2.1]
  rfl

lemma stepBody_res_struct (p : SolveParams) (st : SolveSt)
    (hps : p.phisStop = false) (hvs : p.vparsStop = false) :
    ((stepBody p st).stop = st.stop ∧
      (stepBody p st).res
        = st.res ++ (if ¬p.forget ∨ st.t = 0 then [st.t :: canonicalize p.axis st.y] else [])) ∨
    ((stepBody p st).stop = true ∧
      (stepBody p st).res
        = (st.res ++ (if ¬p.forget ∨ st.t = 0 then [st.t :: canonicalize p.axis st.y] else []))
          ++ [p.I.stepT (st.iter + 1)
                :: canonicalize p.axis (p.I.calcState (st.iter + 1) (p.I.stepT (st.iter + 1)))]) := by
  have hsample : (stepAdvance p st).res
      = st.res ++ (if ¬p.forget ∨ st.t = 0 then [st.t :: canonicalize p.axis st.y] else []) ∧
      (stepAdvance p st).stop = st.stop := by
    simp only [stepAdvance, stepSample]
    split_ifs <;> simp
  have hV : (stepScanV p st).res = (stepAdvance p st).res ∧
      (stepScanV p st).stop = (stepAdvance p st).stop := by
    simp only [stepScanV, hvs]
    exact scanVpars_nostop _ _ _ _ _ _ _ _ _ _ _
  have hP : (stepScanP p st).res = (stepScanV p st).res ∧
      (stepScanP p st).stop = (stepScanV p st).stop := by
    simp only [stepScanP, hps]
    exact scanPhis_nostop _ _ _ _ _ _ _ _ _ _ _ _ _
  rcases scanCrits_cases p.axis (st.iter + 1) (p.I.stepT (st.iter + 1) - p.I.stepT st.iter)
      (p.I.stepT (st.iter + 1)) (p.I.calcState (st.iter + 1) (p.I.stepT (st.iter + 1)))
      p.criteria 0 (stepScanP p st) with ⟨hr, hs, -⟩ | ⟨hr, hs, -⟩
  · left
    constructor
    · show (stepScanC p st).stop = st.stop
      simp only [stepScanC]
      rw [hs, hP.2, hV.2, hsample.2]
    · show (stepScanC p st).res = _
      simp only [stepScanC]
      rw [hr, hP.1, hV.1, hsample.1]
  · right
    constructor
    · show (stepScanC p st).stop = true
      simp only [stepScanC]
      exact hs
    · show (stepScanC p st).res = _
      simp only [stepScanC]
      rw [hr, hP.1, hV.1, hsample.1]

lemma stepBody_hits (p : SolveParams) (st : SolveSt)
    (hroot : ∀ f a b, a ≤ b → a ≤ p.I.root f a b ∧ p.I.root f a b ≤ b)
    (hmono : ∀ n, p.I.stepT n ≤ p.I.stepT (n+1)) :
    ∀ e ∈ (stepBody p st).hits, e ∈ st.hits ∨
      (p.I.stepT st.iter ≤ e.getD 0 0 ∧ e.getD 0 0 ≤ p.I.stepT (st.iter + 1)) := by
  intro e he
  have he' : e ∈ (stepScanC p st).hits := he
  simp only [stepScanC] at he'
  rcases scanCrits_hits _ _ _ _ _ _ _ _ e he' with h | h
  · simp only [stepScanP] at h
    rcases scanPhis_hits _ _ _ _ _ _ _ _ _ _ _ _ _ _ hroot (hmono st.iter) e h with h' | h'
    · simp only [stepScanV] at h'
      rcases scanVpars_hits _ _ _ _ _ _ _ _ _ _ _ _ hroot (hmono st.iter) e h' with h'' | h''
      · rw [stepAdvance_hits] at h''
        exact Or.inl h''
      · exact Or.inr h''
    · exact Or.inr h'
  · right
    rw [h]
    exact ⟨hmono st.iter, le_refl _⟩

/-! ### Loop-level lemmas -/

lemma solveLoop_of_stop (p : SolveParams) (fuel : ℕ) (st : SolveSt)
    (h : (stepBody p st).stop = true) :
    solveLoop p (fuel + 1) st = stepBody p st := by
  simp only [solveLoop]
  rw [if_neg]
  simp [h]

lemma solveFinal_of_stop (p : SolveParams) (st : SolveSt) (h : st.stop = true) :
    solveFinal p st = st := by
  simp only [solveFinal]
  rw [if_neg]
  simp [h]

lemma canonicalize_zero (y : List ℝ) : canonicalize 0 y = y := by
  simp [canonicalize]

lemma scanPhis_tlast_zero (I : Integrator) (axis k : ℕ) (tlast tcur : ℝ)
    (tC phiL phiC : ℝ) (flux pstop : Bool) (l : List (ℝ × ℝ)) (i : ℕ) (st : SolveSt) :
    scanPhis I axis k tlast tcur 0 tC phiL phiC flux pstop l i st = st := by
  induction l generalizing i with
  | nil => rfl
  | cons v rest ih =>
    obtain ⟨phi, omega⟩ := v
    simp only [scanPhis]
    rw [if_neg]
    · exact ih (i+1)
    · simp

lemma solveLoop_hits_bracket (p : SolveParams) (fuel : ℕ) (st : SolveSt)
    (hroot : ∀ f a b, a ≤ b → a ≤ p.I.root f a b ∧ p.I.root f a b ≤ b)
    (hmono : ∀ n, p.I.stepT n ≤ p.I.stepT (n+1))
    (hinv : ∀ e ∈ st.hits, ∃ n, n < st.iter ∧
      p.I.stepT n ≤ e.getD 0 0 ∧ e.getD 0 0 ≤ p.I.stepT (n+1)) :
    ∀ e ∈ (solveLoop p fuel st).hits, ∃ n, n < (solveLoop p fuel st).iter ∧
      p.I.stepT n ≤ e.getD 0 0 ∧ e.getD 0 0 ≤ p.I.stepT (n+1) := by
  induction fuel generalizing st with
  | zero => exact hinv
  | succ f ih =>
    simp only [solveLoop]
    split_ifs with hc
    · apply ih (stepBody p st)
      intro e he
      rcases stepBody_hits p st hroot hmono e he with h | h
      · obtain ⟨n, hn, hb⟩ := hinv e h
        exact ⟨n, by rw [stepBody_iter]; omega, hb⟩
      · exact ⟨st.iter, by rw [stepBody_iter]; omega, h⟩
    · intro e he
      rcases stepBody_hits p st hroot hmono e he with h | h
      · obtain ⟨n, hn, hb⟩ := hinv e h
        exact ⟨n, by rw [stepBody_iter]; omega, hb⟩
      · exact ⟨st.iter, by rw [stepBody_iter]; omega, h⟩

/-- C3 (amended): every emitted event record (v-parallel plane, phi-plane,
or stopping criterion) has a time lying within the bracket
`[stepT n, stepT (n+1)]` of some completed accepted step `n`, provided the
external root solver refines within its bracket and the stepper's times are
monotone.  The original claim's additional bound `time <= tmax` does not
hold: the stepper may overshoot `tmax` and events found in the overshooting
part of the final step are still emitted (see the counterexample). -/
theorem event_times_in_step_bracket (p : SolveParams) (y : List ℝ) (fuel : ℕ)
    (hroot : ∀ f a b, a ≤ b → a ≤ p.I.root f a b ∧ p.I.root f a b ≤ b)
    (hmono : ∀ n, p.I.stepT n ≤ p.I.stepT (n+1)) :
    ∀ e ∈ (solve p y fuel).2,
      ∃ n, n < (solveLoop p fuel (solveInit p y)).iter ∧
        p.I.stepT n ≤ e.getD 0 0 ∧ e.getD 0 0 ≤ p.I.stepT (n+1) := by
  intro e he
  have he' : e ∈ (solveLoop p fuel (solveInit p y)).hits := by
    simpa only [solve, solveFinal_hits] using he
  refine solveLoop_hits_bracket p fuel _ hroot hmono ?_ e he'
  intro e' h
  simp [solveInit] at h

/-- C3 counterexample: with `tmax = 0` (flux trace, one v-parallel plane at
1, v-parallel moving from 0 to 2 during the first internal step `[0, 1]`,
midpoint root oracle), a v-parallel event is emitted at time `1/2 > tmax`,
so the claim's bound "event time lies within `[0, tmax]`" fails. -/
theorem event_time_beyond_tmax_cex :
    ∃ e ∈ (solve
      { I := ⟨fun n => (n : ℝ), fun _ _ => [0, 0, 0, 2], fun _ a b => (a + b)/2⟩,
        axis := 0, tmax := 0, phis := [], omegas := [], criteria := [], vpars := [1],
        phisStop := false, vparsStop := false, flux := true, forget := false,
        junkT := 0, junkV := 0 } [0, 0, 0, 0] 1).2,
      ¬(e.getD 0 0 ≤ 0) := by
  have hev : (solve
      { I := ⟨fun n => (n : ℝ), fun _ _ => [0, 0, 0, 2], fun _ a b => (a + b)/2⟩,
        axis := 0, tmax := 0, phis := [], omegas := [], criteria := [], vpars := [1],
        phisStop := false, vparsStop := false, flux := true, forget := false,
        junkT := 0, junkV := 0 } [0, 0, 0, 0] 1).2 = [[1/2, 0, 0, 0, 0, 2]] := by
    simp only [solve, solveLoop, stepBody, stepScanC, stepScanP, stepScanV, stepAdvance,
      stepSample, solveInit, solveFinal, scanVpars, scanPhis, scanCrits, canonicalize,
      vparCurrentOf, tCurrentOf, phiCurrentOf, sgn]
    norm_num
  rw [hev]
  refine ⟨[1/2, 0, 0, 0, 0, 2], by simp, ?_⟩
  norm_num

/-- Witness for C3 at a concrete flux trace with midpoint root oracle and
unit step times. -/
theorem event_times_in_step_bracket_witness :
    (∀ f : ℝ → ℝ, ∀ a b : ℝ, a ≤ b → a ≤ (a + b)/2 ∧ (a + b)/2 ≤ b) ∧
    (∀ n : ℕ, ((n : ℝ)) ≤ ((n + 1 : ℕ) : ℝ)) ∧
    (∀ e ∈ (solve
      { I := ⟨fun n => (n : ℝ), fun _ _ => [0, 0, 0, 0], fun _ a b => (a + b)/2⟩,
        axis := 0, tmax := 1, phis := [], omegas := [], criteria := [], vpars := [],
        phisStop := false, vparsStop := false, flux := true, forget := false,
        junkT := 0, junkV := 0 } [0, 0, 0, 0] 2).2,
      ∃ n, n < (solveLoop
        { I := ⟨fun n => (n : ℝ), fun _ _ => [0, 0, 0, 0], fun _ a b => (a + b)/2⟩,
          axis := 0, tmax := 1, phis := [], omegas := [], criteria := [], vpars := [],
          phisStop := false, vparsStop := false, flux := true, forget := false,
          junkT := 0, junkV := 0 } 2 (solveInit
        { I := ⟨fun n => (n : ℝ), fun _ _ => [0, 0, 0, 0], fun _ a b => (a + b)/2⟩,
          axis := 0, tmax := 1, phis := [], omegas := [], criteria := [], vpars := [],
          phisStop := false, vparsStop := false, flux := true, forget := false,
          junkT := 0, junkV := 0 } [0, 0, 0, 0])).iter ∧
        ((n : ℝ)) ≤ e.getD 0 0 ∧ e.getD 0 0 ≤ ((n + 1 : ℕ) : ℝ)) := by
  have h1 : ∀ f : ℝ → ℝ, ∀ a b : ℝ, a ≤ b → a ≤ (a + b)/2 ∧ (a + b)/2 ≤ b := by
    intro f a b h
    constructor <;> linarith
  have h2 : ∀ n : ℕ, ((n : ℝ)) ≤ ((n + 1 : ℕ) : ℝ) := by
    intro n
    push_cast
    linarith
  exact ⟨h1, h2, event_times_in_step_bracket _ _ _ h1 h2⟩

/-! ### The `*_stop` flags: what the first matching crossing does stop -/

lemma scanVpars_stop_first (I : Integrator) (axis k : ℕ)
    (tlast tcur vplast vpcur : ℝ) (phisLen : ℕ) (l : List ℝ) (i : ℕ) (st : SolveSt) :
    (scanVpars I axis k tlast tcur vplast vpcur phisLen true l i st).hits.length
      ≤ st.hits.length + 1 ∧
    ((scanVpars I axis k tlast tcur vplast vpcur phisLen true l i st).hits.length
        = st.hits.length + 1 →
      (scanVpars I axis k tlast tcur vplast vpcur phisLen true l i st).stop = true ∧
      (scanVpars I axis k tlast tcur vplast vpcur phisLen true l i st).res.length
        = st.res.length + 1) := by
  induction l generalizing i st with
  | nil =>
    simp only [scanVpars]
    exact ⟨Nat.le_succ _, fun h => absurd h (by omega)⟩
  | cons v rest ih =>
    simp only [scanVpars]
    split_ifs with h1
    · constructor
      · simp
      · intro h
        exact ⟨rfl, by simp⟩
    · exact ih (i+1) st

lemma scanPhis_stop_first (I : Integrator) (axis k : ℕ) (tlast tcur : ℝ)
    (tG tC phiL phiC : ℝ) (flux : Bool) (l : List (ℝ × ℝ)) (i : ℕ) (st : SolveSt) :
    (scanPhis I axis k tlast tcur tG tC phiL phiC flux true l i st).hits.length
      ≤ st.hits.length + 1 ∧
    ((scanPhis I axis k tlast tcur tG tC phiL phiC flux true l i st).hits.length
        = st.hits.length + 1 →
      (scanPhis I axis k tlast tcur tG tC phiL phiC flux true l i st).stop = true ∧
      (scanPhis I axis k tlast tcur tG tC phiL phiC flux true l i st).res.length
        = st.res.length + 1) := by
  induction l generalizing i st with
  | nil =>
    simp only [scanPhis]
    exact ⟨Nat.le_succ _, fun h => absurd h (by omega)⟩
  | cons v rest ih =>
    simp only [scanPhis]
    split_ifs with h1 h2
    all_goals first
      | exact ih (i+1) st
      | (constructor
         · simp
         · intro h
           exact ⟨rfl, by simp⟩)

/-- C1 (amended): a v-parallel (resp. phi) plane crossing detected while
`vpars_stop` (resp. `phis_stop`) is set appends its refined sample, emits
its event, sets the stop flag, and ends the scan of its own plane class
(at most one event of that class per step) and all further loop
iterations; with the flag set no normal `tmax` sample is appended either.
However the scans that follow it within the same step (phi-planes after a
v-parallel stop, and the stopping criteria) still run and may emit further
events and samples — the original claim's "no further event records and no
further trajectory samples" is refuted by the counterexample. -/
theorem vpars_stop_terminates :
    (∀ (I : Integrator) (axis k : ℕ) (tlast tcur vplast vpcur : ℝ) (phisLen : ℕ)
        (l : List ℝ) (i : ℕ) (st : SolveSt),
      (scanVpars I axis k tlast tcur vplast vpcur phisLen true l i st).hits.length
          ≤ st.hits.length + 1 ∧
        ((scanVpars I axis k tlast tcur vplast vpcur phisLen true l i st).hits.length
            = st.hits.length + 1 →
          (scanVpars I axis k tlast tcur vplast vpcur phisLen true l i st).stop = true ∧
          (scanVpars I axis k tlast tcur vplast vpcur phisLen true l i st).res.length
            = st.res.length + 1)) ∧
    (∀ (I : Integrator) (axis k : ℕ) (tlast tcur tG tC phiL phiC : ℝ) (flux : Bool)
        (l : List (ℝ × ℝ)) (i : ℕ) (st : SolveSt),
      (scanPhis I axis k tlast tcur tG tC phiL phiC flux true l i st).hits.length
          ≤ st.hits.length + 1 ∧
        ((scanPhis I axis k tlast tcur tG tC phiL phiC flux true l i st).hits.length
            = st.hits.length + 1 →
          (scanPhis I axis k tlast tcur tG tC phiL phiC flux true l i st).stop = true ∧
          (scanPhis I axis k tlast tcur tG tC phiL phiC flux true l i st).res.length
            = st.res.length + 1)) ∧
    (∀ (p : SolveParams) (fuel : ℕ) (st : SolveSt),
      (stepBody p st).stop = true → solveLoop p (fuel + 1) st = stepBody p st) ∧
    (∀ (p : SolveParams) (st : SolveSt), st.stop = true → solveFinal p st = st) :=
  ⟨fun I axis k tlast tcur vplast vpcur phisLen l i st =>
      scanVpars_stop_first I axis k tlast tcur vplast vpcur phisLen l i st,
    fun I axis k tlast tcur tG tC phiL phiC flux l i st =>
      scanPhis_stop_first I axis k tlast tcur tG tC phiL phiC flux l i st,
    solveLoop_of_stop, solveFinal_of_stop⟩

/-- C1 counterexample: flux trace, one v-parallel plane at 1 crossed in the
first step with `vpars_stop = true`, plus an always-true stopping
criterion.  After the terminating v-parallel emission (event kind 0 at
t = 1) the same step still emits the stopping-criterion event (kind -1 at
t = 2) and appends its sample, so the event list has two records and the
trajectory three samples — refuting "no further event records and no
further trajectory samples after this terminating emission". -/
theorem vpars_stop_further_emissions_cex :
    ((solve
      { I := ⟨fun n => 2 * (n : ℝ), fun _ _ => [0, 0, 0, 2], fun _ a b => (a + b)/2⟩,
        axis := 0, tmax := 5, phis := [], omegas := [],
        criteria := [fun _ _ _ _ _ _ _ => true], vpars := [1],
        phisStop := false, vparsStop := true, flux := true, forget := false,
        junkT := 0, junkV := 0 } [0, 0, 0, 0] 1).2.map (fun e => e.getD 1 0) = [0, -1]) ∧
    (solve
      { I := ⟨fun n => 2 * (n : ℝ), fun _ _ => [0, 0, 0, 2], fun _ a b => (a + b)/2⟩,
        axis := 0, tmax := 5, phis := [], omegas := [],
        criteria := [fun _ _ _ _ _ _ _ => true], vpars := [1],
        phisStop := false, vparsStop := true, flux := true, forget := false,
        junkT := 0, junkV := 0 } [0, 0, 0, 0] 1).1.length = 3 := by
  constructor <;>
  · simp only [solve, solveLoop, stepBody, stepScanC, stepScanP, stepScanV, stepAdvance,
      stepSample, solveInit, solveFinal, scanVpars, scanPhis, scanCrits, canonicalize,
      vparCurrentOf, tCurrentOf, phiCurrentOf, sgn]
    norm_num

/-- Witness for C1 at a concrete scan state with one crossing. -/
theorem vpars_stop_terminates_witness :
    (scanVpars ⟨fun n => (n : ℝ), fun _ _ => [0, 0, 0, 2], fun _ a b => (a + b)/2⟩
        0 1 0 1 0 2 0 true [1] 0
        ⟨1, [0, 0, 0, 2], 1, false, 0, 0, 0, [[0, 0, 0, 0, 0]], []⟩).hits.length ≤ 0 + 1 :=
  (vpars_stop_terminates.1 _ _ _ _ _ _ _ _ _ _ _).1

/-! ### Strict monotonicity of the recorded trajectory times -/

lemma chain_lt_append_one {l : List ℝ} {a : ℝ} (hc : List.Chain' (· < ·) l)
    (h : ∀ x ∈ l, x < a) : List.Chain' (· < ·) (l ++ [a]) := by
  rw [List.chain'_append]
  refine ⟨hc, List.chain'_singleton a, ?_⟩
  intro x hx y hy
  simp only [List.head?_cons, Option.mem_def, Option.some.injEq] at hy
  subst hy
  obtain ⟨hne, rfl⟩ := List.mem_getLast?_eq_getLast hx
  exact h _ (List.getLast_mem hne)

lemma sampleTimes_append (r1 r2 : List (List ℝ)) :
    sampleTimes (r1 ++ r2) = sampleTimes r1 ++ sampleTimes r2 :=
  List.map_append _ r1 r2

lemma sampleTimes_single (t : ℝ) (y : List ℝ) :
    sampleTimes [t :: y] = [t] := by
  simp [sampleTimes]

lemma solveLoop_times_chain (p : SolveParams) (fuel : ℕ) (st : SolveSt)
    (hps : p.phisStop = false) (hvs : p.vparsStop = false)
    (hmono : ∀ n, p.I.stepT n < p.I.stepT (n+1))
    (ht : st.t = p.I.stepT st.iter)
    (hstop : st.stop = false)
    (htmax : st.t < p.tmax)
    (hchain : List.Chain' (· < ·) (sampleTimes st.res))
    (hlt : ∀ x ∈ sampleTimes st.res, x < st.t)
    (hltm : ∀ x ∈ sampleTimes st.res, x < p.tmax) :
    List.Chain' (· < ·) (sampleTimes (solveLoop p fuel st).res) ∧
    ((solveLoop p fuel st).stop = false →
      ∀ x ∈ sampleTimes (solveLoop p fuel st).res, x < p.tmax) := by
  induction fuel generalizing st with
  | zero => exact ⟨hchain, fun _ => hltm⟩
  | succ f ih =>
    simp only [solveLoop]
    have hB := stepBody_res_struct p st hps hvs
    have hBt := stepBody_t p st
    have hBi := stepBody_iter p st
    have hbase : List.Chain' (· < ·)
        (sampleTimes (st.res ++ (if ¬p.forget ∨ st.t = 0
          then [st.t :: canonicalize p.axis st.y] else []))) ∧
        (∀ x ∈ sampleTimes (st.res ++ (if ¬p.forget ∨ st.t = 0
          then [st.t :: canonicalize p.axis st.y] else [])), x ≤ st.t) ∧
        (∀ x ∈ sampleTimes (st.res ++ (if ¬p.forget ∨ st.t = 0
          then [st.t :: canonicalize p.axis st.y] else [])), x < p.tmax) := by
      split_ifs
      · rw [sampleTimes_append, sampleTimes_single]
        refine ⟨chain_lt_append_one hchain hlt, ?_, ?_⟩
        · intro x hx
          rcases List.mem_append.mp hx with h | h
          · exact le_of_lt (hlt x h)
          · simp only [List.mem_singleton] at h
            subst h
            exact le_refl _
        · intro x hx
          rcases List.mem_append.mp hx with h | h
          · exact hltm x h
          · simp only [List.mem_singleton] at h
            subst h
            exact htmax
      · simp only [List.append_nil]
        exact ⟨hchain, fun x hx => le_of_lt (hlt x hx), hltm⟩
    have hstep : st.t < (stepBody p st).t := by
      rw [hBt, ht]
      exact hmono st.iter
    rcases hB with ⟨hs, hr⟩ | ⟨hs, hr⟩
    · split_ifs with hc
      · refine ih (stepBody p st) ?_ ?_ ?_ ?_ ?_ ?_
        · rw [hBt, hBi]
        · rw [hs, hstop]
        · exact hc.1
        · rw [hr]; exact hbase.1
        · rw [hr]
          intro x hx
          exact lt_of_le_of_lt (hbase.2.1 x hx) hstep
        · rw [hr]; exact hbase.2.2
      · rw [hr]
        exact ⟨hbase.1, fun _ => hbase.2.2⟩
    · split_ifs with hc
      · rw [hs] at hc
        exact absurd hc.2 (by simp)
      · constructor
        · rw [hr, sampleTimes_append, sampleTimes_single]
          refine chain_lt_append_one hbase.1 ?_
          intro x hx
          refine lt_of_le_of_lt (hbase.2.1 x hx) ?_
          rw [ht]
          exact hmono st.iter
        · intro hcon
          rw [hs] at hcon
          cases hcon

/-- C5 (amended): for every trace with `tmax > 0` in which the
`phis_stop` / `vpars_stop` flags are unset (so that the only mid-step
samples are stopping-criterion stop samples), the times of the trajectory
samples returned by `solve` are strictly monotonically increasing, given
that the external stepper's accepted times strictly increase from
`stepT 0 = 0`.  The original unrestricted claim fails at `tmax = 0`, where
the do-while loop duplicates the t = 0 sample (see the counterexample). -/
theorem trajectory_times_strict_mono (p : SolveParams) (y : List ℝ) (fuel : ℕ)
    (hps : p.phisStop = false) (hvs : p.vparsStop = false)
    (hmono : ∀ n, p.I.stepT n < p.I.stepT (n+1))
    (ht0 : p.I.stepT 0 = 0)
    (htmax : 0 < p.tmax) :
    List.Chain' (· < ·) (sampleTimes (solve p y fuel).1) := by
  have hL := solveLoop_times_chain p fuel (solveInit p y) hps hvs hmono
    (by simp [solveInit, ht0]) rfl (by simpa [solveInit] using htmax)
    (by simp [solveInit, sampleTimes]) (by simp [solveInit, sampleTimes])
    (by simp [solveInit, sampleTimes])
  rcases hR : (solveLoop p fuel (solveInit p y)).stop with _ | _
  · have hfin : (solveFinal p (solveLoop p fuel (solveInit p y))).res
        = (solveLoop p fuel (solveInit p y)).res ++ [p.tmax ::
            canonicalize p.axis (p.I.calcState (solveLoop p fuel (solveInit p y)).iter p.tmax)] := by
      simp only [solveFinal]
      rw [if_pos hR]
    show List.Chain' (· < ·) (sampleTimes (solveFinal p (solveLoop p fuel (solveInit p y))).res)
    rw [hfin, sampleTimes_append, sampleTimes_single]
    exact chain_lt_append_one hL.1 (hL.2 hR)
  · show List.Chain' (· < ·) (sampleTimes (solveFinal p (solveLoop p fuel (solveInit p y))).res)
    rw [solveFinal_of_stop _ _ hR]
    exact hL.1

/-- C5 counterexample: with `tmax = 0` (and no planes or criteria at all)
the trace returns two samples both at t = 0 — the initial do-while sample
and the normal-completion sample interpolated at `tmax = 0` — so the
trajectory times are not strictly increasing. -/
theorem trajectory_times_not_strict_cex :
    ¬ List.Chain' (· < ·) (sampleTimes (solve
      { I := ⟨fun n => (n : ℝ), fun _ _ => [0, 0, 0, 0], fun _ a b => (a + b)/2⟩,
        axis := 0, tmax := 0, phis := [], omegas := [], criteria := [], vpars := [],
        phisStop := false, vparsStop := false, flux := true, forget := false,
        junkT := 0, junkV := 0 } [0, 0, 0, 0] 1).1) := by
  have hev : sampleTimes (solve
      { I := ⟨fun n => (n : ℝ), fun _ _ => [0, 0, 0, 0], fun _ a b => (a + b)/2⟩,
        axis := 0, tmax := 0, phis := [], omegas := [], criteria := [], vpars := [],
        phisStop := false, vparsStop := false, flux := true, forget := false,
        junkT := 0, junkV := 0 } [0, 0, 0, 0] 1).1 = [0, 0] := by
    simp only [solve, solveLoop, stepBody, stepScanC, stepScanP, stepScanV, stepAdvance,
      stepSample, solveInit, solveFinal, scanVpars, scanPhis, scanCrits, canonicalize,
      vparCurrentOf, tCurrentOf, phiCurrentOf, sgn, sampleTimes]
    norm_num
  rw [hev]
  simp [List.chain'_cons]

/-- Witness for C5 at a concrete flux trace with unit step times and
`tmax = 3/2`. -/
theorem trajectory_times_strict_mono_witness :
    ((0:ℝ) < 3/2) ∧
    List.Chain' (· < ·) (sampleTimes (solve
      { I := ⟨fun n => (n : ℝ), fun _ _ => [0, 0, 0, 0], fun _ a b => (a + b)/2⟩,
        axis := 0, tmax := 3/2, phis := [], omegas := [], criteria := [], vpars := [],
        phisStop := false, vparsStop := false, flux := true, forget := false,
        junkT := 0, junkV := 0 } [0, 0, 0, 0] 3).1) := by
  refine ⟨by norm_num, trajectory_times_strict_mono _ _ _ rfl rfl ?_ ?_ (by norm_num)⟩
  · intro n
    show (n : ℝ) < ((n + 1 : ℕ) : ℝ)
    push_cast
    linarith
  · show ((0 : ℕ) : ℝ) = 0
    norm_num

/-! ### Behavior at tmax = 0 -/

lemma stepBody_trivial_scans (p : SolveParams) (st : SolveSt)
    (hvp : p.vpars = [])
    (hcrit : ∀ c ∈ p.criteria, ∀ a b c' d e f g, c a b c' d e f g = false)
    (htl : st.tLast = 0) :
    stepBody p st = { stepAdvance p st with
      tLast := tCurrentOf p st, phiLast := phiCurrentOf p st,
      vparLast := vparCurrentOf p st } := by
  have h1 : stepScanV p st = stepAdvance p st := by
    simp only [stepScanV, hvp]
    rfl
  have h2 : stepScanP p st = stepAdvance p st := by
    simp only [stepScanP, h1, htl]
    exact scanPhis_tlast_zero _ _ _ _ _ _ _ _ _ _ _ _ _
  have h3 : stepScanC p st = stepAdvance p st := by
    simp only [stepScanC, h2]
    exact scanCrits_nofire _ _ _ _ _ _ _ _ hcrit
  simp only [stepBody, h3]

/-- C2 (amended): a trace with `tmax = 0` whose stopping criteria never
fire and with no v-parallel planes returns a trajectory of exactly two
samples, both at t = 0 — the do-while body runs once, records the initial
sample, and the normal-completion epilogue appends a second sample
interpolated at `tmax = 0` — and an empty event list (the phi-plane scan
is skipped on the first step because `t_last = 0`).  The original claim
says exactly one sample; that is refuted by the counterexample. -/
theorem tmax_zero_two_samples (p : SolveParams) (y : List ℝ) (fuel : ℕ)
    (htm : p.tmax = 0) (hvp : p.vpars = [])
    (hcrit : ∀ c ∈ p.criteria, ∀ a b c' d e f g, c a b c' d e f g = false)
    (hpos : 0 ≤ p.I.stepT 1) (hf : 1 ≤ fuel) :
    (solve p y fuel).2 = [] ∧ sampleTimes (solve p y fuel).1 = [0, 0] := by
  obtain ⟨f, rfl⟩ : ∃ f, fuel = f + 1 := ⟨fuel - 1, by omega⟩
  set st0 := solveInit p y with hst0
  have hb := stepBody_trivial_scans p st0 hvp hcrit (by simp [hst0, solveInit])
  have hBt : (stepBody p st0).t = p.I.stepT 1 := by
    rw [stepBody_t]
    simp [hst0, solveInit]
  have hBs : (stepBody p st0).stop = false := by
    rw [hb]
    show (stepAdvance p st0).stop = false
    simp only [stepAdvance, stepSample]
    split_ifs <;> rfl
  have hBres : (stepBody p st0).res = [(0:ℝ) :: canonicalize p.axis y] := by
    rw [hb]
    show (stepAdvance p st0).res = _
    simp only [stepAdvance, stepSample]
    rw [if_pos (Or.inr (show st0.t = 0 by simp [hst0, solveInit]))]
    show st0.res ++ [st0.t :: canonicalize p.axis st0.y] = _
    simp [hst0, solveInit]
  have hBhits : (stepBody p st0).hits = [] := by
    rw [hb]
    show (stepAdvance p st0).hits = []
    rw [stepAdvance_hits]
    rfl
  have hneg : ¬((stepBody p st0).t < p.tmax ∧ (stepBody p st0).stop = false) := by
    rw [hBt, htm]
    intro hcond
    exact absurd hcond.1 (not_lt.mpr hpos)
  have hloop : solveLoop p (f + 1) st0 = stepBody p st0 := by
    simp only [solveLoop]
    rw [if_neg hneg]
  have hfin : solveFinal p (stepBody p st0) = { stepBody p st0 with
      y := p.I.calcState (stepBody p st0).iter p.tmax,
      res := (stepBody p st0).res
        ++ [p.tmax :: canonicalize p.axis
              (p.I.calcState (stepBody p st0).iter p.tmax)] } := by
    simp only [solveFinal]
    rw [if_pos hBs]
  constructor
  · show (solveFinal p (solveLoop p (f+1) st0)).hits = []
    rw [hloop, hfin]
    exact hBhits
  · show sampleTimes (solveFinal p (solveLoop p (f+1) st0)).res = [0, 0]
    rw [hloop, hfin]
    show sampleTimes ((stepBody p st0).res ++ [p.tmax :: _]) = [0, 0]
    rw [hBres, htm, sampleTimes_append, sampleTimes_single, sampleTimes_single]
    rfl

/-- C2 counterexample: a `tmax = 0` flux trace with no planes and no
stopping criteria returns two trajectory samples, not one. -/
theorem tmax_zero_single_sample_cex :
    ¬((solve
      { I := ⟨fun n => (n : ℝ), fun _ _ => [1, 0, 0, 0], fun _ a b => (a + b)/2⟩,
        axis := 0, tmax := 0, phis := [], omegas := [], criteria := [], vpars := [],
        phisStop := false, vparsStop := false, flux := true, forget := false,
        junkT := 0, junkV := 0 } [1, 0, 0, 0] 1).1.length = 1) := by
  have hev : (solve
      { I := ⟨fun n => (n : ℝ), fun _ _ => [1, 0, 0, 0], fun _ a b => (a + b)/2⟩,
        axis := 0, tmax := 0, phis := [], omegas := [], criteria := [], vpars := [],
        phisStop := false, vparsStop := false, flux := true, forget := false,
        junkT := 0, junkV := 0 } [1, 0, 0, 0] 1).1.length = 2 := by
    simp only [solve, solveLoop, stepBody, stepScanC, stepScanP, stepScanV, stepAdvance,
      stepSample, solveInit, solveFinal, scanVpars, scanPhis, scanCrits, canonicalize,
      vparCurrentOf, tCurrentOf, phiCurrentOf, sgn]
    norm_num
  rw [hev]
  norm_num

/-- Witness for C2 at a concrete flux trace with `tmax = 0`. -/
theorem tmax_zero_two_samples_witness :
    ((0:ℝ) ≤ ((1 : ℕ) : ℝ)) ∧
    ((solve
      { I := ⟨fun n => (n : ℝ), fun _ _ => [0, 0, 0, 0], fun _ a b => (a + b)/2⟩,
        axis := 0, tmax := 0, phis := [], omegas := [], criteria := [], vpars := [],
        phisStop := false, vparsStop := false, flux := true, forget := false,
        junkT := 0, junkV := 0 } [0, 0, 0, 0] 1).2 = [] ∧
     sampleTimes (solve
      { I := ⟨fun n => (n : ℝ), fun _ _ => [0, 0, 0, 0], fun _ a b => (a + b)/2⟩,
        axis := 0, tmax := 0, phis := [], omegas := [], criteria := [], vpars := [],
        phisStop := false, vparsStop := false, flux := true, forget := false,
        junkT := 0, junkV := 0 } [0, 0, 0, 0] 1).1 = [0, 0]) := by
  refine ⟨by norm_num, tmax_zero_two_samples _ _ _ rfl rfl ?_ ?_ (le_refl 1)⟩
  · intro c hc
    cases hc
  · show (0:ℝ) ≤ ((1 : ℕ) : ℝ)
    norm_num

lemma solveFinal_res_len (p : SolveParams) (st : SolveSt) :
    (solveFinal p st).res.length
      = st.res.length + (if st.stop = false then 1 else 0) := by
  simp only [solveFinal]
  split_ifs <;> simp

lemma solveLoop_forget_len (p : SolveParams) (fuel : ℕ) (st : SolveSt)
    (hforget : p.forget = true) (hps : p.phisStop = false) (hvs : p.vparsStop = false)
    (hmono : ∀ n, p.I.stepT n < p.I.stepT (n+1)) (ht0 : p.I.stepT 0 = 0)
    (ht : st.t = p.I.stepT st.iter) (hiter : 1 ≤ st.iter)
    (hstop : st.stop = false) (hlen : st.res.length = 1) :
    ((solveLoop p fuel st).stop = false ∧ (solveLoop p fuel st).res.length = 1) ∨
    ((solveLoop p fuel st).stop = true ∧ (solveLoop p fuel st).res.length = 2) := by
  induction fuel generalizing st with
  | zero => exact Or.inl ⟨hstop, hlen⟩
  | succ f ih =>
    simp only [solveLoop]
    have hB := stepBody_res_struct p st hps hvs
    have htpos : st.t ≠ 0 := by
      rw [ht]
      have hsm := strictMono_nat_of_lt_succ hmono
      have h0 : p.I.stepT 0 < p.I.stepT st.iter := hsm (by omega)
      rw [ht0] at h0
      exact ne_of_gt h0
    have hpushnil : (if ¬p.forget ∨ st.t = 0 then [st.t :: canonicalize p.axis st.y] else [])
        = ([] : List (List ℝ)) := by
      rw [if_neg]
      rintro (h | h)
      · exact h (by rw [hforget])
      · exact htpos h
    rcases hB with ⟨hs, hr⟩ | ⟨hs, hr⟩
    · rw [hpushnil, List.append_nil] at hr
      split_ifs with hc
      · refine ih (stepBody p st) ?_ ?_ ?_ ?_
        · rw [stepBody_t, stepBody_iter]
        · rw [stepBody_iter]; omega
        · rw [hs, hstop]
        · rw [hr]; exact hlen
      · exact Or.inl ⟨by rw [hs, hstop], by rw [hr]; exact hlen⟩
    · rw [hpushnil, List.append_nil] at hr
      split_ifs with hc
      · rw [hs] at hc
        exact absurd hc.2 (by simp)
      · right
        refine ⟨hs, ?_⟩
        rw [hr, List.length_append, hlen]
        rfl

/-- C6 (amended): (i) for every trace, enabling `forget_exact_path` leaves
the event list bitwise identical to the run with it disabled (the flag
gates only trajectory recording); (ii) with `forget_exact_path` enabled
and the `phis_stop` / `vpars_stop` flags unset, the returned trajectory
has exactly two samples — the initial sample at t = 0 and the terminating
sample (the `tmax` sample on normal completion, or the stop point when a
stopping criterion fires).  The original claim's "exactly two samples" for
all traces fails when several terminating emissions append samples in the
same step (see the counterexample). -/
theorem forget_exact_path_two_samples_and_events :
    (∀ (p : SolveParams) (y : List ℝ) (fuel : ℕ),
      (solve { p with forget := true } y fuel).2
        = (solve { p with forget := false } y fuel).2) ∧
    (∀ (p : SolveParams) (y : List ℝ) (fuel : ℕ),
      p.forget = true → p.phisStop = false → p.vparsStop = false →
      (∀ n, p.I.stepT n < p.I.stepT (n+1)) → p.I.stepT 0 = 0 → 1 ≤ fuel →
      (solve p y fuel).1.length = 2) := by
  constructor
  · intro p y fuel
    have hinit : (solveInit { p with forget := true } y).core
        = (solveInit { p with forget := false } y).core := rfl
    have hloop := solveLoop_core_congr p true false fuel _ _ hinit
    show (solveFinal _ _).hits = (solveFinal _ _).hits
    rw [solveFinal_hits, solveFinal_hits]
    exact core_eq_hits hloop
  · intro p y fuel hforget hps hvs hmono ht0 hf
    obtain ⟨f, rfl⟩ : ∃ f, fuel = f + 1 := ⟨fuel - 1, by omega⟩
    set st0 := solveInit p y with hst0
    show (solveFinal p (solveLoop p (f + 1) st0)).res.length = 2
    have hB := stepBody_res_struct p st0 hps hvs
    have hpush : (if ¬p.forget ∨ st0.t = 0
          then [st0.t :: canonicalize p.axis st0.y] else [])
        = [st0.t :: canonicalize p.axis st0.y] :=
      if_pos (Or.inr (by simp [hst0, solveInit]))
    have hres0 : st0.res = [] := by simp [hst0, solveInit]
    simp only [solveLoop]
    rcases hB with ⟨hs, hr⟩ | ⟨hs, hr⟩
    · have hs' : (stepBody p st0).stop = false := by
        rw [hs]; simp [hst0, solveInit]
      have hlen1 : (stepBody p st0).res.length = 1 := by
        rw [hr, hpush, hres0]
        rfl
      split_ifs with hc
      · have hL := solveLoop_forget_len p f (stepBody p st0) hforget hps hvs hmono ht0
          (by rw [stepBody_t, stepBody_iter]) (by rw [stepBody_iter]; omega) hs' hlen1
        rcases hL with ⟨hsf, hlf⟩ | ⟨hsf, hlf⟩
        · rw [solveFinal_res_len, hlf, if_pos hsf]
        · rw [solveFinal_res_len, hlf, if_neg (by rw [hsf]; simp)]
      · rw [solveFinal_res_len, hlen1, if_pos hs']
    · split_ifs with hc
      · rw [hs] at hc
        exact absurd hc.2 (by simp)
      · rw [solveFinal_res_len, hr, hpush, hres0, if_neg (by rw [hs]; simp)]
        rfl

/-- C6 counterexample: with `forget_exact_path = true`, a flux trace whose
first step both crosses a v-parallel plane with `vpars_stop = true` and
fires an always-true stopping criterion appends a sample for each
terminating emission: the returned trajectory has three samples, not
two. -/
theorem forget_exact_path_cex :
    ¬((solve
      { I := ⟨fun n => (n : ℝ), fun _ _ => [0, 0, 0, 2], fun _ a b => (a + b)/2⟩,
        axis := 0, tmax := 5, phis := [], omegas := [],
        criteria := [fun _ _ _ _ _ _ _ => true], vpars := [1],
        phisStop := false, vparsStop := true, flux := true, forget := true,
        junkT := 0, junkV := 0 } [0, 0, 0, 0] 1).1.length = 2) := by
  have hev : (solve
      { I := ⟨fun n => (n : ℝ), fun _ _ => [0, 0, 0, 2], fun _ a b => (a + b)/2⟩,
        axis := 0, tmax := 5, phis := [], omegas := [],
        criteria := [fun _ _ _ _ _ _ _ => true], vpars := [1],
        phisStop := false, vparsStop := true, flux := true, forget := true,
        junkT := 0, junkV := 0 } [0, 0, 0, 0] 1).1.length = 3 := by
    simp only [solve, solveLoop, stepBody, stepScanC, stepScanP, stepScanV, stepAdvance,
      stepSample, solveInit, solveFinal, scanVpars, scanPhis, scanCrits, canonicalize,
      vparCurrentOf, tCurrentOf, phiCurrentOf, sgn]
    norm_num
  rw [hev]
  norm_num

/-- Witness for C6 part (ii) at a concrete flux trace with
`forget_exact_path = true`. -/
theorem forget_exact_path_two_samples_witness :
    (solve
      { I := ⟨fun n => (n : ℝ), fun _ _ => [0, 0, 0, 0], fun _ a b => (a + b)/2⟩,
        axis := 0, tmax := 3/2, phis := [], omegas := [], criteria := [], vpars := [],
        phisStop := false, vparsStop := false, flux := true, forget := true,
        junkT := 0, junkV := 0 } [0, 0, 0, 0] 3).1.length = 2 := by
  refine forget_exact_path_two_samples_and_events.2 _ _ _ rfl rfl rfl ?_ ?_ (by norm_num)
  · intro n
    show (n : ℝ) < ((n + 1 : ℕ) : ℝ)
    push_cast
    linarith
  · show ((0 : ℕ) : ℝ) = 0
    norm_num

/-! ### The out-of-bounds `ykeep[3]` read of the stopping-criterion scan
on field-line (size-3) states -/

/-- C7: for every field-line trace (state size 3), the per-step
stopping-criterion evaluation reads `ykeep[3]`, one past the end of the
size-3 state; under the total embedding this read returns `none` and is
reachable on the very first completed step of every run: a criterion that
fires exactly on a `none` v-parallel argument (`vparProbe`) terminates
every field-line trace at step 1, emitting the stopping event. -/
theorem fieldline_criteria_oob (I : Integrator) (junkT junkV AbsB : ℝ)
    (xyz : List ℝ) (tmax abstol reltol : ℝ) (phis : List ℝ) (fuel : ℕ)
    (h3 : ∀ k : ℕ, ∀ t : ℝ, (I.calcState k t).length = 3) (hf : 1 ≤ fuel) :
    (I.calcState 1 (I.stepT 1)).get? 3 = none ∧
    (fieldline_tracing I junkT junkV AbsB xyz tmax abstol reltol phis
        [vparProbe] fuel).2
      = [I.stepT 1 :: (-1 : ℝ) :: I.calcState 1 (I.stepT 1)] ∧
    (fieldline_tracing I junkT junkV AbsB xyz tmax abstol reltol phis
        [vparProbe] fuel).1
      = [0 :: xyz, I.stepT 1 :: I.calcState 1 (I.stepT 1)] := by
  have hoob : (I.calcState 1 (I.stepT 1)).get? 3 = none :=
    List.get?_eq_none.mpr (le_of_eq (h3 1 (I.stepT 1)))
  refine ⟨hoob, ?_⟩
  set P : SolveParams :=
    { I := I, axis := 0, tmax := tmax, phis := phis,
      omegas := List.replicate phis.length 0, criteria := [vparProbe], vpars := [],
      phisStop := false, vparsStop := false, flux := false, forget := false,
      junkT := junkT, junkV := junkV } with hP
  have hft : fieldline_tracing I junkT junkV AbsB xyz tmax abstol reltol phis
      [vparProbe] fuel = solve P xyz fuel := rfl
  obtain ⟨f, rfl⟩ : ∃ f, fuel = f + 1 := ⟨fuel - 1, by omega⟩
  set st0 := solveInit P xyz with hst0
  have h1 : stepScanV P st0 = stepAdvance P st0 := rfl
  have htl : st0.tLast = 0 := by simp [hst0, solveInit]
  have h2 : stepScanP P st0 = stepAdvance P st0 := by
    simp only [stepScanP, h1]
    rw [htl]
    exact scanPhis_tlast_zero _ _ _ _ _ _ _ _ _ _ _ _ _
  have hcanon : canonicalize P.axis (P.I.calcState (st0.iter + 1) (P.I.stepT (st0.iter + 1)))
      = I.calcState 1 (I.stepT 1) := by
    show canonicalize 0 (I.calcState 1 (I.stepT 1)) = _
    exact canonicalize_zero _
  have hnone : (canonicalize P.axis
      (P.I.calcState (st0.iter + 1) (P.I.stepT (st0.iter + 1)))).get? 3 = none := by
    rw [hcanon]
    exact hoob
  have h3' : stepScanC P st0 =
      { stepAdvance P st0 with
        stop := true,
        res := (stepAdvance P st0).res
          ++ [P.I.stepT (st0.iter + 1) :: canonicalize P.axis
                (P.I.calcState (st0.iter + 1) (P.I.stepT (st0.iter + 1)))],
        hits := (stepAdvance P st0).hits
          ++ [P.I.stepT (st0.iter + 1) :: (-1 - ((0:ℕ):ℝ)) :: canonicalize P.axis
                (P.I.calcState (st0.iter + 1) (P.I.stepT (st0.iter + 1)))] } := by
    have hcond : vparProbe (st0.iter + 1) (I.stepT (st0.iter + 1) - I.stepT st0.iter)
        (I.stepT (st0.iter + 1))
        ((canonicalize 0 (I.calcState (st0.iter + 1) (I.stepT (st0.iter + 1)))).get? 0)
        ((canonicalize 0 (I.calcState (st0.iter + 1) (I.stepT (st0.iter + 1)))).get? 1)
        ((canonicalize 0 (I.calcState (st0.iter + 1) (I.stepT (st0.iter + 1)))).get? 2)
        ((canonicalize 0 (I.calcState (st0.iter + 1) (I.stepT (st0.iter + 1)))).get? 3)
        = true := by
      simp only [vparProbe, canonicalize_zero]
      rw [List.get?_eq_none.mpr (le_of_eq (h3 _ _))]
      rfl
    simp only [stepScanC, h2, scanCrits]
    rw [if_pos hcond]
  have hstop : (stepBody P st0).stop = true := by
    show (stepScanC P st0).stop = true
    rw [h3']
  have hloop := solveLoop_of_stop P f st0 hstop
  rw [hft]
  have hadvres : (stepAdvance P st0).res = [0 :: xyz] := by
    simp only [stepAdvance, stepSample]
    rw [if_pos (Or.inl (by simp [hP]))]
    simp [hst0, solveInit, canonicalize_zero]
  constructor
  · show (solveFinal P (solveLoop P (f+1) st0)).hits = _
    rw [hloop, solveFinal_of_stop _ _ hstop]
    show (stepScanC P st0).hits = _
    rw [h3']
    show (stepAdvance P st0).hits ++ _ = _
    rw [stepAdvance_hits, hcanon]
    show st0.hits ++ _ = _
    have : st0.hits = [] := by simp [hst0, solveInit]
    rw [this]
    norm_num [hst0, solveInit]
  · show (solveFinal P (solveLoop P (f+1) st0)).res = _
    rw [hloop, solveFinal_of_stop _ _ hstop]
    show (stepScanC P st0).res = _
    rw [h3']
    show (stepAdvance P st0).res ++ _ = _
    rw [hadvres, hcanon]
    rfl

/-- Witness for C7 at a concrete stepper with constant size-3 states. -/
theorem fieldline_criteria_oob_witness :
    (([5, 6, 7] : List ℝ).get? 3 = none) ∧
    (fieldline_tracing ⟨fun n => (n : ℝ), fun _ _ => [5, 6, 7], fun _ a b => (a + b)/2⟩
        0 0 1 [1, 2, 3] 1 1 1 [] [vparProbe] 1).2
      = [((1:ℕ) : ℝ) :: (-1 : ℝ) :: [5, 6, 7]] ∧
    (fieldline_tracing ⟨fun n => (n : ℝ), fun _ _ => [5, 6, 7], fun _ a b => (a + b)/2⟩
        0 0 1 [1, 2, 3] 1 1 1 [] [vparProbe] 1).1
      = [0 :: [1, 2, 3], ((1:ℕ) : ℝ) :: [5, 6, 7]] :=
  fieldline_criteria_oob ⟨fun n => (n : ℝ), fun _ _ => [5, 6, 7], fun _ a b => (a + b)/2⟩
    0 0 1 [1, 2, 3] 1 1 1 [] 1 (fun _ _ => rfl) (le_refl 1)

/-! ### particle_guiding_center_tracing supports only vacuum fields -/

/-- C8: `particle_guiding_center_tracing` called with `vacuum = false`
raises the unsupported-mode failure (a `std::logic_error`, modelled as
`Except.error`) and returns no partial trajectory or events; with
`vacuum = true` it constructs the vacuum guiding-center RHS (`Size = 4`,
chart 0) and delegates to `solve` with the caller's planes and criteria,
empty v-parallel planes, and all flags false. -/
theorem guiding_center_tracing_vacuum_only
    (I : Integrator) (junkT junkV AbsB : ℝ) (xyz_init : List ℝ)
    (m q vtotal vtang tmax abstol reltol : ℝ) (vacuum : Bool)
    (phis omegas : List ℝ) (criteria : List StoppingCriterion) (fuel : ℕ) :
    (vacuum = false →
      particle_guiding_center_tracing I junkT junkV AbsB xyz_init m q vtotal vtang
          tmax abstol reltol vacuum phis omegas criteria fuel
        = Except.error
            "Guiding center right hand side currently only implemented for vacuum fields.") ∧
    (vacuum = true →
      particle_guiding_center_tracing I junkT junkV AbsB xyz_init m q vtotal vtang
          tmax abstol reltol vacuum phis omegas criteria fuel
        = Except.ok (solve
          { I := I, axis := 0, tmax := tmax, phis := phis, omegas := omegas,
            criteria := criteria, vpars := [], phisStop := false, vparsStop := false,
            flux := false, forget := false, junkT := junkT, junkV := junkV }
          [xyz_init.getD 0 0, xyz_init.getD 1 0, xyz_init.getD 2 0, vtang] fuel)) := by
  constructor
  · intro h
    simp only [particle_guiding_center_tracing, h]
    rfl
  · intro h
    simp only [particle_guiding_center_tracing, h]
    rfl

/-- Witness for C8: the non-vacuum call fails with the unsupported-mode
error at a concrete input. -/
theorem guiding_center_tracing_vacuum_only_witness :
    particle_guiding_center_tracing
        ⟨fun n => (n : ℝ), fun _ _ => [0, 0, 0, 0], fun _ a b => (a + b)/2⟩
        0 0 1 [1, 0, 0] 1 1 1 0 1 (1/8) (1/8) false [] [] [] 1
      = Except.error
          "Guiding center right hand side currently only implemented for vacuum fields." :=
  (guiding_center_tracing_vacuum_only _ _ _ _ _ _ _ _ _ _ _ _ false _ _ _ _).1 rfl

/-! ### Concrete values of get_phi used by the indeterminacy counterexample -/

lemma atan2_zero_one : atan2 0 1 = 0 := by
  unfold atan2
  rw [show (⟨1, 0⟩ : ℂ) = 1 from by apply Complex.ext <;> simp]
  exact Complex.arg_one

lemma atan2_one_zero : atan2 1 0 = π/2 := by
  unfold atan2
  rw [show (⟨0, 1⟩ : ℂ) = Complex.I from by apply Complex.ext <;> simp]
  exact Complex.arg_I

lemma phi0_one_zero : phi0 1 0 = 0 := by
  simp only [phi0, atan2_zero_one]
  norm_num

lemma phi0_zero_one : phi0 0 1 = π/2 := by
  simp only [phi0, atan2_one_zero]
  rw [if_neg]
  have := Real.pi_pos
  linarith

lemma cround_zero : cround 0 = 0 := by
  unfold cround
  norm_num

lemma get_phi_one_zero_pi : get_phi 1 0 π = 0 := by
  have hpi := Real.pi_pos
  have hcr : cround (π/(2*π)) = 1 := by
    rw [show π/(2*π) = 1/2 from by
      rw [div_eq_iff (by positivity)]
      ring]
    unfold cround
    rw [if_pos (by norm_num)]
    norm_num
  simp only [get_phi, phi0_one_zero, hcr]
  rw [show ((1:ℤ):ℝ) * 2 * π - 2*π + 0 = 0 from by push_cast; ring,
    show ((1:ℤ):ℝ) * 2 * π + 0 = 2*π from by push_cast; ring,
    show ((1:ℤ):ℝ) * 2 * π + 2*π + 0 = 4*π from by push_cast; ring]
  rw [show |(0:ℝ) - π| = π from by rw [zero_sub, abs_neg, abs_of_pos hpi],
    show |2*π - π| = π from by rw [show 2*π - π = π from by ring, abs_of_pos hpi],
    show |4*π - π| = 3*π from by
      rw [show 4*π - π = 3*π from by ring]
      exact abs_of_pos (by positivity)]
  rw [if_pos (le_min (le_refl _) (by linarith))]

lemma get_phi_one_zero_zero : get_phi 1 0 0 = 0 := by
  have hpi := Real.pi_pos
  have hcr : cround ((0:ℝ)/(2*π)) = 0 := by
    rw [zero_div]
    exact cround_zero
  simp only [get_phi, phi0_one_zero, hcr]
  rw [show ((0:ℤ):ℝ) * 2 * π - 2*π + 0 = -(2*π) from by push_cast; ring,
    show ((0:ℤ):ℝ) * 2 * π + 0 = 0 from by push_cast; ring,
    show ((0:ℤ):ℝ) * 2 * π + 2*π + 0 = 2*π from by push_cast; ring]
  rw [show |(-(2*π):ℝ) - 0| = 2*π from by
      rw [sub_zero, abs_neg]
      exact abs_of_pos (by positivity),
    show |(0:ℝ) - 0| = 0 from by norm_num,
    show |2*π - 0| = 2*π from by
      rw [sub_zero]
      exact abs_of_pos (by positivity)]
  rw [if_neg (by
      rw [min_eq_left (by positivity)]
      intro h
      linarith),
    if_pos (le_min (by positivity) (by positivity))]

lemma get_phi_zero_one_zero : get_phi 0 1 0 = π/2 := by
  have hpi := Real.pi_pos
  have hcr : cround ((0:ℝ)/(2*π)) = 0 := by
    rw [zero_div]
    exact cround_zero
  simp only [get_phi, phi0_zero_one, hcr]
  rw [show ((0:ℤ):ℝ) * 2 * π - 2*π + π/2 = -(3*π/2) from by push_cast; ring,
    show ((0:ℤ):ℝ) * 2 * π + π/2 = π/2 from by push_cast; ring,
    show ((0:ℤ):ℝ) * 2 * π + 2*π + π/2 = 5*π/2 from by push_cast; ring]
  rw [show |(-(3*π/2):ℝ) - 0| = 3*π/2 from by
      rw [sub_zero, abs_neg]
      exact abs_of_pos (by positivity),
    show |(π/2:ℝ) - 0| = π/2 from by
      rw [sub_zero]
      exact abs_of_pos (by positivity),
    show |(5*π/2:ℝ) - 0| = 5*π/2 from by
      rw [sub_zero]
      exact abs_of_pos (by positivity)]
  rw [if_neg (by
      rw [min_eq_left (by linarith)]
      intro h
      linarith),
    if_pos (le_min (by linarith) (by linarith))]

/-! ### C4: the output depends on the indeterminate locals -/

lemma junk_zero_run_hits :
    (fieldline_tracing
      ⟨fun n => (n : ℝ), fun k _ => if k ≤ 1 then [1, 0, 0] else [0, 1, 0],
       fun _ a b => (a + b)/2⟩
      0 0 1 [1, 0, 0] 2 0 0 [π/4] [] 2).2 = [] := by
  simp only [fieldline_tracing, solve, solveLoop, stepBody, stepScanC, stepScanP,
    stepScanV, stepAdvance, stepSample, solveInit, solveFinal, scanVpars, scanPhis,
    scanCrits, canonicalize, vparCurrentOf, tCurrentOf, phiCurrentOf]
  norm_num [get_phi_one_zero_pi, get_phi_one_zero_zero, get_phi_zero_one_zero]

lemma floor_phase_last_c4 : ⌊(-(π/4)) / (2*π)⌋ = -1 := by
  rw [show (-(π/4)) / (2*π) = -(1/8) from by
    rw [div_eq_iff (by positivity)]
    ring]
  rw [Int.floor_eq_iff]
  norm_num

lemma floor_phase_cur_c4 : ⌊(π/2 - π/4) / (2*π)⌋ = 0 := by
  rw [show (π/2 - π/4) / (2*π) = 1/8 from by
    rw [div_eq_iff (by positivity)]
    ring]
  rw [Int.floor_eq_iff]
  norm_num

lemma junk_five_run_hits :
    (fieldline_tracing
      ⟨fun n => (n : ℝ), fun k _ => if k ≤ 1 then [1, 0, 0] else [0, 1, 0],
       fun _ a b => (a + b)/2⟩
      5 0 1 [1, 0, 0] 2 0 0 [π/4] [] 2).2 = [[3/2, 0, 0, 1, 0]] := by
  simp only [fieldline_tracing, solve, solveLoop, stepBody, stepScanC, stepScanP,
    stepScanV, stepAdvance, stepSample, solveInit, solveFinal, scanVpars, scanPhis,
    scanCrits, canonicalize, vparCurrentOf, tCurrentOf, phiCurrentOf]
  norm_num [get_phi_one_zero_pi, get_phi_one_zero_zero, get_phi_zero_one_zero,
    floor_phase_last_c4, floor_phase_cur_c4]

/-- C4: refuted (code bug).  The pair (trajectory, events) returned by
`solve` is not a function of the call's visible arguments alone: on the
non-flux path the locals `t_current` / `vpar_current` (`tracing.cpp:663`)
are read (as `t_last` via `tracing.cpp:779` in the Φ-scan guard
`t_last != 0` of `tracing.cpp:727`) without ever having been assigned.
Two `fieldline_tracing` calls identical in every argument of the C++
signature, differing only in the indeterminate initial content of
`t_current` (`junkT` 5 versus 0), return different event lists: the first
emits a Φ-plane event at t = 3/2, the second emits none. -/
theorem trace_output_depends_on_indeterminate_locals :
    fieldline_tracing
      ⟨fun n => (n : ℝ), fun k _ => if k ≤ 1 then [1, 0, 0] else [0, 1, 0],
       fun _ a b => (a + b)/2⟩
      5 0 1 [1, 0, 0] 2 0 0 [π/4] [] 2
    ≠ fieldline_tracing
      ⟨fun n => (n : ℝ), fun k _ => if k ≤ 1 then [1, 0, 0] else [0, 1, 0],
       fun _ a b => (a + b)/2⟩
      0 0 1 [1, 0, 0] 2 0 0 [π/4] [] 2 := by
  intro h
  have h2 := congrArg Prod.snd h
  rw [junk_five_run_hits, junk_zero_run_hits] at h2
  simp at h2
